import Mathlib

/-!
Verification of the kotoba-js dictionary import and tag-reconciliation pipeline.

The development is a shallow embedding of two source layers:

* the import layer (`src/src/import.ts`, function `importSource`): bank-file
  classification, positional row decoding over untyped JSON values, and the
  index/format validation;
* the reconciliation layer (function `mergeTags` of the importer module):
  merging the tag lists of several imported dictionaries into one shared,
  collision-resolved namespace, rewriting every tag reference in place.

JavaScript maps and objects are modelled as insertion-ordered association
lists, JSON values as the inductive `JValue` (JavaScript `undefined` and
`null` are both modelled by `JValue.null`; both are falsy and neither claim
distinguishes them), and thrown exceptions as `Except` errors.
-/

/-- A parsed JSON value, as produced by `JSON.parse`. -/
inductive JValue where
  | null
  | bool (b : Bool)
  | num (n : Int)
  | str (s : String)
  | arr (xs : List JValue)
  | obj (fields : List (String × JValue))

/-- JavaScript truthiness of a JSON value (`undefined`/`null`, `false`, `0`
and `""` are falsy; arrays and objects are always truthy). -/
def truthy : JValue → Bool
  | .null => false
  | .bool b => b
  | .num n => n != 0
  | .str s => s != ""
  | .arr _ => true
  | .obj _ => true

/-- Lookup in an insertion-ordered association list (JavaScript `Map.get` /
object property read). -/
def getAssoc {β : Type} (m : List (String × β)) (k : String) : Option β :=
  (m.find? (fun p => p.1 == k)).map (fun p => p.2)

/-- Update in an insertion-ordered association list (JavaScript `Map.set` /
object property write): an existing key keeps its position, a new key is
appended. -/
def setAssoc {β : Type} (m : List (String × β)) (k : String) (v : β) :
    List (String × β) :=
  match m with
  | [] => [(k, v)]
  | (k', v') :: rest =>
      if k' == k then (k, v) :: rest else (k', v') :: setAssoc rest k v

/-- The keys of an association list, in order. -/
def keysOf {β : Type} (m : List (String × β)) : List String :=
  m.map Prod.fst

/-- Splits a character list at every space character; models the behaviour of
JavaScript `String.prototype.split(' ')` (which never returns an empty list:
splitting the empty string yields one empty piece). -/
def splitChars : List Char → List (List Char)
  | [] => [[]]
  | c :: cs =>
      if c = ' ' then [] :: splitChars cs
      else
        match splitChars cs with
        | [] => [[c]]
        | t :: ts => (c :: t) :: ts

/-- `const csv = (input) => input.split(' ').filter((x) => !!x)` from
`importSource`: split a space-delimited list and drop the empty tokens. -/
def csv (s : String) : List String :=
  ((splitChars s.data).map String.mk).filter (fun x => x != "")

/-- Rejoins a token list with single spaces; this is the rejoin operation of
the decode/reencode round-trip property (the source itself never rejoins). -/
def joinSp (ts : List String) : String :=
  ⟨List.intercalate [' '] (ts.map String.data)⟩

/-- Little-endian decimal digits of `n`, with explicit fuel (`fuel ≥ n`
suffices for the real digits). -/
def digitsLE : Nat → Nat → List Nat
  | 0, _ => []
  | fuel + 1, n => if n = 0 then [] else n % 10 :: digitsLE fuel (n / 10)

/-- The ASCII character of a decimal digit. -/
def digitChar (d : Nat) : Char := Char.ofNat (48 + d)

/-- Decimal rendering of a natural number, as JavaScript renders integral
numbers in template strings (`${counter}`). -/
def natStr (n : Nat) : String :=
  if n = 0 then "0" else ⟨((digitsLE n n).reverse.map digitChar)⟩

/-- Decimal value of a digit string; `parseInt(s, 10)` restricted to the
all-digit strings that the bank-file pattern guarantees. -/
def strVal (s : String) : Nat :=
  s.data.foldl (fun a c => a * 10 + (c.toNat - 48)) 0

-- ## Round-trip lemmas for the decimal rendering

/-- Little-endian decimal value of a digit list. -/
def valLE : List Nat → Nat
  | [] => 0
  | d :: ds => d + 10 * valLE ds

theorem valLE_digitsLE (fuel : Nat) : ∀ n : Nat, n ≤ fuel →
    valLE (digitsLE fuel n) = n := by
  induction fuel with
  | zero => intro n h; interval_cases n; simp [digitsLE, valLE]
  | succ fuel ih =>
      intro n h
      by_cases h0 : n = 0
      · simp [digitsLE, h0, valLE]
      · have hdiv : n / 10 ≤ fuel := by
          have : n / 10 < n := Nat.div_lt_self (Nat.pos_of_ne_zero h0) (by omega)
          omega
        simp only [digitsLE, h0, if_false, valLE, ih (n / 10) hdiv]
        omega

theorem digitsLE_lt_ten (fuel : Nat) : ∀ n : Nat, ∀ d ∈ digitsLE fuel n, d < 10 := by
  induction fuel with
  | zero => intro n d h; simp [digitsLE] at h
  | succ fuel ih =>
      intro n d h
      by_cases h0 : n = 0
      · simp [digitsLE, h0] at h
      · simp only [digitsLE, h0, if_false, List.mem_cons] at h
        rcases h with h | h
        · omega
        · exact ih _ _ h

theorem digitChar_toNat {d : Nat} (h : d < 10) : (digitChar d).toNat = 48 + d := by
  interval_cases d <;> rfl

theorem foldl_reverse_digits (ds : List Nat) (h : ∀ d ∈ ds, d < 10) :
    List.foldl (fun a c => a * 10 + (c.toNat - 48)) 0 ((ds.reverse.map digitChar)) =
      valLE ds := by
  induction ds with
  | nil => simp [valLE]
  | cons d ds ih =>
      have hd : d < 10 := h d (by simp)
      have hds : ∀ x ∈ ds, x < 10 := fun x hx => h x (by simp [hx])
      simp only [List.reverse_cons, List.map_append, List.map_cons, List.map_nil,
        List.foldl_append, List.foldl_cons, List.foldl_nil, ih hds, valLE]
      rw [digitChar_toNat hd]
      omega

theorem strVal_natStr (n : Nat) : strVal (natStr n) = n := by
  by_cases h0 : n = 0
  · simp [h0, natStr, strVal]
  · have : natStr n = ⟨((digitsLE n n).reverse.map digitChar)⟩ := by
      simp [natStr, h0]
    rw [this]
    show List.foldl _ 0 ((digitsLE n n).reverse.map digitChar) = n
    rw [foldl_reverse_digits _ (digitsLE_lt_ten n n)]
    exact valLE_digitsLE n n (Nat.le_refl n)

theorem natStr_injective {a b : Nat} (h : natStr a = natStr b) : a = b := by
  have := congrArg strVal h
  rwa [strVal_natStr, strVal_natStr] at this

-- ## Token lemmas for the space splitter

theorem splitChars_ne_nil (cs : List Char) : splitChars cs ≠ [] := by
  cases cs with
  | nil => simp [splitChars]
  | cons c cs =>
      simp only [splitChars]
      by_cases h : c = ' '
      · simp [h]
      · simp only [h, if_false]
        cases splitChars cs <;> simp

theorem no_space_of_mem_splitChars (cs : List Char) :
    ∀ t ∈ splitChars cs, ' ' ∉ t := by
  induction cs with
  | nil => intro t ht; simp [splitChars] at ht; simp [ht]
  | cons c cs ih =>
      intro t ht
      simp only [splitChars] at ht
      by_cases h : c = ' '
      · simp only [h, if_true, List.mem_cons] at ht
        rcases ht with ht | ht
        · simp [ht]
        · exact ih t ht
      · simp only [h, if_false] at ht
        rcases hsplit : splitChars cs with _ | ⟨t0, ts⟩
        · exact absurd hsplit (splitChars_ne_nil cs)
        · rw [hsplit] at ht
          simp only [List.mem_cons] at ht
          rcases ht with ht | ht
          · subst ht
            intro hc
            rcases List.mem_cons.mp hc with hc | hc
            · exact h hc.symm
            · exact ih t0 (by simp [hsplit]) hc
          · exact ih t (by simp [hsplit, ht])

theorem splitChars_token_append (t cs : List Char) (h : ' ' ∉ t) :
    ∃ h0 ts, splitChars cs = h0 :: ts ∧ splitChars (t ++ cs) = (t ++ h0) :: ts := by
  induction t with
  | nil =>
      rcases hsplit : splitChars cs with _ | ⟨h0, ts⟩
      · exact absurd hsplit (splitChars_ne_nil cs)
      · exact ⟨h0, ts, rfl, by simp [hsplit]⟩
  | cons c t ih =>
      have hc : c ≠ ' ' := fun hc => h (by simp [hc])
      have ht : ' ' ∉ t := fun ht => h (by simp [ht])
      rcases ih ht with ⟨h0, ts, hsplit, happ⟩
      refine ⟨h0, ts, hsplit, ?_⟩
      have happ' : splitChars (t.append cs) = (t ++ h0) :: ts := happ
      simp only [List.cons_append, splitChars, hc, if_false, happ']

theorem splitChars_space_cons (cs : List Char) :
    splitChars (' ' :: cs) = [] :: splitChars cs := by
  simp [splitChars]

/-- Splitting the single-space intercalation of nonempty space-free tokens
recovers exactly those tokens. -/
theorem splitChars_intercalate (ts : List (List Char))
    (hne : ∀ t ∈ ts, t ≠ []) (hsp : ∀ t ∈ ts, ' ' ∉ t) :
    (splitChars (List.intercalate [' '] ts)).filter (fun t => !t.isEmpty) = ts := by
  induction ts with
  | nil => simp [List.intercalate, splitChars]
  | cons t ts ih =>
      have hne0 : t ≠ [] := hne t (by simp)
      have hemp : (!t.isEmpty) = true := by
        cases t
        · exact absurd rfl hne0
        · rfl
      cases ts with
      | nil =>
          have hsp0 : ' ' ∉ t := hsp t (by simp)
          rcases splitChars_token_append t [] hsp0 with ⟨h0, ts2, hsplit, happ⟩
          have hnil : ([[]] : List (List Char)) = h0 :: ts2 := by
            simpa [splitChars] using hsplit
          have h0e : h0 = [] := by
            injection hnil with h1 _
            exact h1.symm
          have tse : ts2 = [] := by
            injection hnil with _ h2
            exact h2.symm
          have hint : List.intercalate [' '] [t] = t ++ [] := by
            simp [List.intercalate]
          rw [hint, happ, h0e, tse]
          simp [List.filter, hemp]
      | cons t2 ts2 =>
          have hsp0 : ' ' ∉ t := hsp t (by simp)
          have hstep : List.intercalate [' '] (t :: t2 :: ts2) =
              t ++ (' ' :: List.intercalate [' '] (t2 :: ts2)) := by
            simp [List.intercalate, List.intersperse]
          rcases splitChars_token_append t (' ' :: List.intercalate [' '] (t2 :: ts2))
              hsp0 with ⟨h0, ts3, hsplit, happ⟩
          rw [splitChars_space_cons] at hsplit
          have h0e : h0 = [] := by
            injection hsplit with h1 _
            exact h1.symm
          have tse : ts3 = splitChars (List.intercalate [' '] (t2 :: ts2)) := by
            injection hsplit with _ h2
            exact h2.symm
          rw [hstep, happ, h0e, tse]
          have ihr := ih (fun x hx => hne x (by simp [hx]))
            (fun x hx => hsp x (by simp [hx]))
          simp only [List.append_nil, List.filter, hemp, ihr]

theorem map_data_filter (ls : List (List Char)) :
    (((ls.map String.mk).filter (fun x => x != "")).map String.data) =
      ls.filter (fun t => !t.isEmpty) := by
  induction ls with
  | nil => simp
  | cons u us ih =>
      by_cases hu : u = []
      · subst hu
        have h1 : ((⟨[]⟩ : String) != "") = false := by rfl
        simp only [List.map_cons, List.filter, h1]
        simpa using ih
      · have h1 : ((⟨u⟩ : String) != "") = true := by
          have : (⟨u⟩ : String) ≠ "" := fun h => hu (congrArg String.data h)
          simpa using this
        have h2 : (!u.isEmpty) = true := by
          cases u
          · exact absurd rfl hu
          · rfl
        simp only [List.map_cons, List.filter, h1, h2]
        simpa using ih

theorem csv_data (s : String) :
    (csv s).map String.data = (splitChars s.data).filter (fun t => !t.isEmpty) := by
  unfold csv
  exact map_data_filter (splitChars s.data)

theorem csv_no_empty (s : String) : "" ∉ csv s := by
  intro h
  unfold csv at h
  have := List.of_mem_filter h
  simp at this

theorem csv_joinSp_csv (s : String) : csv (joinSp (csv s)) = csv s := by
  have hdata : (joinSp (csv s)).data =
      List.intercalate [' '] ((splitChars s.data).filter (fun t => !t.isEmpty)) := by
    show List.intercalate [' '] ((csv s).map String.data) = _
    rw [csv_data]
  have hne : ∀ t ∈ (splitChars s.data).filter (fun t => !t.isEmpty), t ≠ [] := by
    intro t ht
    have := List.of_mem_filter ht
    cases t
    · simp at this
    · simp
  have hsp : ∀ t ∈ (splitChars s.data).filter (fun t => !t.isEmpty), ' ' ∉ t := by
    intro t ht
    exact no_space_of_mem_splitChars s.data t (List.mem_of_mem_filter ht)
  have key : (csv (joinSp (csv s))).map String.data = (csv s).map String.data := by
    rw [csv_data, hdata, splitChars_intercalate _ hne hsp, csv_data]
  have hinj : Function.Injective String.data := fun a b h => String.ext h
  exact List.map_injective_iff.mpr hinj key

-- ## Collision-suffix identifiers

/-- The candidate identifier probed for a tag name at a given counter value:
the name itself first, then `name-2`, `name-3`, … (from `mapTag`). -/
def tagId (name : String) (counter : Nat) : String :=
  if counter = 1 then name else name ++ "-" ++ natStr counter

theorem tagId_length {name : String} {k : Nat} (h : 2 ≤ k) :
    (tagId name k).length = name.length + 1 + (natStr k).length := by
  have hk : k ≠ 1 := by omega
  have hdash : ("-" : String).length = 1 := rfl
  simp [tagId, hk, String.length_append, hdash]

theorem tagId_ne_self {name : String} {k : Nat} (h : 2 ≤ k) :
    tagId name k ≠ name := by
  intro he
  have := congrArg String.length he
  rw [tagId_length h] at this
  omega

theorem string_append_left_cancel {a b c : String} (h : a ++ b = a ++ c) : b = c := by
  have hd := congrArg String.data h
  rw [String.data_append, String.data_append] at hd
  exact String.ext (List.append_cancel_left hd)

theorem tagId_inj {name : String} {j k : Nat} (hj : 1 ≤ j) (hk : 1 ≤ k)
    (h : tagId name j = tagId name k) : j = k := by
  by_cases hj1 : j = 1
  · by_cases hk1 : k = 1
    · omega
    · exfalso
      have : tagId name k = name := by rw [← h, hj1]; simp [tagId]
      exact tagId_ne_self (by omega) this
  · by_cases hk1 : k = 1
    · exfalso
      have : tagId name j = name := by rw [h, hk1]; simp [tagId]
      exact tagId_ne_self (by omega) this
    · have hj' : tagId name j = name ++ "-" ++ natStr j := by simp [tagId, hj1]
      have hk' : tagId name k = name ++ "-" ++ natStr k := by simp [tagId, hk1]
      rw [hj', hk', String.append_assoc, String.append_assoc] at h
      have := string_append_left_cancel h
      have := string_append_left_cancel this
      exact natStr_injective this

-- ## Bank classifier

/-- A classified bank file: record kind, full file name, numeric bank index
(the result of `splitName` in `importSource`). -/
structure Bank where
  kind : String
  file : String
  index : Nat
deriving DecidableEq

/-- The record kinds recognized by the bank-file pattern
`^(term|kanji|tag|term_meta|kanji_meta)_bank_(\d+)\.json$`, in the
alternation order of the regex. -/
def bankKinds : List String := ["term", "kanji", "tag", "term_meta", "kanji_meta"]

/-- Strips a prefix from a character list, or fails. -/
def stripPre : List Char → List Char → Option (List Char)
  | [], cs => some cs
  | _ :: _, [] => none
  | p :: ps, c :: cs => if c = p then stripPre ps cs else none

/-- Nonempty all-digit check (`\d+`). -/
def isDigits (cs : List Char) : Bool :=
  !cs.isEmpty && cs.all Char.isDigit

/-- Matches one alternative of the bank-file pattern: succeeds iff
`name = kind ++ "_bank_" ++ digits ++ ".json"` with `digits` nonempty and
all-digit, returning the classified bank with `parseInt(digits, 10)`. -/
def matchBank (kind name : String) : Option Bank :=
  match stripPre (kind ++ "_bank_").data name.data with
  | none => none
  | some rest =>
      match stripPre ".json".data.reverse rest.reverse with
      | none => none
      | some revDigits =>
          let ds := revDigits.reverse
          if isDigits ds then some ⟨kind, name, strVal ⟨ds⟩⟩ else none

/-- `splitName` from `importSource`: classify a file name against the bank
pattern, trying the kind alternatives in the regex's order; a non-matching
name yields `none` (the file is ignored). -/
def splitName (name : String) : Option Bank :=
  bankKinds.findSome? (fun kind => matchBank kind name)

/-- Code-point lexicographic comparison of character lists (the order that
`localeCompare` induces on the five possible kind strings). -/
def ltChars : List Char → List Char → Bool
  | [], [] => false
  | [], _ :: _ => true
  | _ :: _, [] => false
  | a :: as, b :: bs =>
      if a < b then true else if b < a then false else ltChars as bs

/-- Code-point lexicographic comparison of strings. -/
def strLt (a b : String) : Bool := ltChars a.data b.data

theorem ltChars_trans : ∀ as bs cs : List Char, ltChars as bs = true →
    ltChars bs cs = true → ltChars as cs = true := by
  intro as
  induction as with
  | nil =>
      intro bs cs h1 h2
      cases bs with
      | nil => simp [ltChars] at h1
      | cons b bs' =>
          cases cs with
          | nil => simp [ltChars] at h2
          | cons c cs' => simp [ltChars]
  | cons a as ih =>
      intro bs cs h1 h2
      cases bs with
      | nil => simp [ltChars] at h1
      | cons b bs' =>
          cases cs with
          | nil => simp [ltChars] at h2
          | cons c cs' =>
              simp only [ltChars] at h1 h2 ⊢
              by_cases hab : a < b
              · by_cases hbc : b < c
                · simp [lt_trans hab hbc]
                · rw [if_neg hbc] at h2
                  by_cases hcb : c < b
                  · rw [if_pos hcb] at h2
                    exact absurd h2 (by simp)
                  · have hbceq : b = c := le_antisymm (not_lt.mp hcb) (not_lt.mp hbc)
                    rw [← hbceq]
                    simp [hab]
              · rw [if_neg hab] at h1
                by_cases hba : b < a
                · rw [if_pos hba] at h1
                  exact absurd h1 (by simp)
                · have habeq : a = b := le_antisymm (not_lt.mp hba) (not_lt.mp hab)
                  rw [if_neg hba] at h1
                  by_cases hbc : b < c
                  · rw [habeq]
                    simp [hbc]
                  · rw [if_neg hbc] at h2
                    by_cases hcb : c < b
                    · rw [if_pos hcb] at h2
                      exact absurd h2 (by simp)
                    · have hbceq : b = c := le_antisymm (not_lt.mp hcb) (not_lt.mp hbc)
                      rw [if_neg hcb] at h2
                      have hac : ¬a < c := by rw [habeq]; exact hbc
                      have hca : ¬c < a := by rw [habeq]; exact hcb
                      rw [if_neg hac, if_neg hca]
                      exact ih bs' cs' h1 h2

theorem ltChars_connex : ∀ as bs : List Char, ltChars as bs = false →
    ltChars bs as = false → as = bs := by
  intro as
  induction as with
  | nil =>
      intro bs h1 h2
      cases bs with
      | nil => rfl
      | cons b bs' => simp [ltChars] at h1
  | cons a as ih =>
      intro bs h1 h2
      cases bs with
      | nil => simp [ltChars] at h2
      | cons b bs' =>
          simp only [ltChars] at h1 h2
          by_cases hab : a < b
          · rw [if_pos hab] at h1
            exact absurd h1 (by simp)
          · by_cases hba : b < a
            · rw [if_pos hba] at h2
              exact absurd h2 (by simp)
            · have habeq : a = b := le_antisymm (not_lt.mp hba) (not_lt.mp hab)
              rw [if_neg hab, if_neg hba] at h1
              rw [if_neg hba, if_neg hab] at h2
              rw [habeq, ih bs' h1 h2]

theorem strLt_trans {a b c : String} (h1 : strLt a b = true)
    (h2 : strLt b c = true) : strLt a c = true :=
  ltChars_trans a.data b.data c.data h1 h2

theorem strLt_connex {a b : String} (h1 : strLt a b = false)
    (h2 : strLt b a = false) : a = b :=
  String.ext (ltChars_connex a.data b.data h1 h2)

/-- The sort comparator of `importSource`
(`a.kind !== b.kind ? a.kind.localeCompare(b.kind) : a.index - b.index`) as a
total preorder: kind first, then index.  For the five possible kind strings
the locale collation coincides with code-point order, which `strLt`
implements. -/
def bankLE (a b : Bank) : Bool :=
  strLt a.kind b.kind || (a.kind == b.kind && decide (a.index ≤ b.index))

/-- Propositional form of `bankLE`. -/
def bankLEp (a b : Bank) : Prop := bankLE a b = true

instance : DecidableRel bankLEp := fun a b =>
  inferInstanceAs (Decidable (bankLE a b = true))

theorem bankLEp_iff (a b : Bank) :
    bankLEp a b ↔ strLt a.kind b.kind = true ∨
      (a.kind = b.kind ∧ a.index ≤ b.index) := by
  simp [bankLEp, bankLE, Bool.or_eq_true, Bool.and_eq_true, decide_eq_true_eq,
    beq_iff_eq]

instance : IsTotal Bank bankLEp := by
  constructor
  intro a b
  rcases h1 : strLt a.kind b.kind with _ | _
  · rcases h2 : strLt b.kind a.kind with _ | _
    · have he : a.kind = b.kind := strLt_connex h1 h2
      rcases Nat.le_total a.index b.index with hi | hi
      · exact Or.inl ((bankLEp_iff a b).mpr (Or.inr ⟨he, hi⟩))
      · exact Or.inr ((bankLEp_iff b a).mpr (Or.inr ⟨he.symm, hi⟩))
    · exact Or.inr ((bankLEp_iff b a).mpr (Or.inl h2))
  · exact Or.inl ((bankLEp_iff a b).mpr (Or.inl h1))

instance : IsTrans Bank bankLEp := by
  constructor
  intro a b c hab hbc
  rcases (bankLEp_iff a b).mp hab with h1 | ⟨h1, h1i⟩ <;>
    rcases (bankLEp_iff b c).mp hbc with h2 | ⟨h2, h2i⟩
  · exact (bankLEp_iff a c).mpr (Or.inl (strLt_trans h1 h2))
  · exact (bankLEp_iff a c).mpr (Or.inl (h2 ▸ h1))
  · exact (bankLEp_iff a c).mpr (Or.inl (h1 ▸ h2))
  · exact (bankLEp_iff a c).mpr (Or.inr ⟨h1.trans h2, le_trans h1i h2i⟩)

/-- The classified, deterministically ordered bank files of a file listing:
keep the names matching the bank pattern, sort by kind (lexicographic) then
numeric index (the `Object.keys(...).map(splitName).filter(...).sort(...)`
pipeline of `importSource`; `Array.prototype.sort` is stable and the
comparator keys are unique per file name, so insertion sort realizes it). -/
def bankFiles (names : List String) : List Bank :=
  List.insertionSort bankLEp (names.filterMap splitName)

-- ## The import layer
--
-- TypeScript `as` casts perform no runtime conversion or check, so the
-- records assembled by `importSource` keep whatever JSON value sat in each
-- column; only the columns passed through `csv` (a JavaScript method call on
-- the value) can make the import throw.  Scalar record fields are therefore
-- modelled as `JValue`.

/-- A decoded term row (`dict.terms.push({...})` in `importSource`). -/
structure JTerm where
  expression : JValue
  reading : JValue
  definition_tags : List String
  rules : List String
  score : JValue
  glossary : JValue
  sequence : JValue
  term_tags : List String

/-- A decoded kanji row. -/
structure JKanji where
  character : JValue
  onyomi : List String
  kunyomi : List String
  tags : List String
  meanings : JValue
  stats : JValue

/-- A decoded tag row (`notes` lands in `description`). -/
structure JTag where
  name : JValue
  category : JValue
  order : JValue
  description : JValue
  score : JValue

/-- A decoded frequency row. -/
structure JMeta where
  expression : JValue
  mode : JValue
  data : JValue

/-- The dictionary aggregate assembled by `importSource`. -/
structure JDict where
  index : JValue
  terms : List JTerm
  kanji : List JKanji
  tags : List JTag
  terms_meta : List JMeta
  kanji_meta : List JMeta

/-- The failure cases of one archive's import.  `missingIndex` and
`badFormat` model the two explicit `throw err(...)` sites; `typeErr` models
the TypeError JavaScript raises when row decoding calls `.split` on a value
that is not a string, or iterates a row that is not an array. -/
inductive ErrKind where
  | missingIndex
  | badFormat (got : JValue)
  | typeErr

/-- An import error; `archive` is the source name interpolated by the `err`
helper (`importing ${source.name}: ...`). -/
structure ImpError where
  archive : String
  kind : ErrKind

/-- `csv(v as string)`: calling `.split(' ')` on a non-string throws. -/
def csvJ : JValue → Except ErrKind (List String)
  | .str s => .ok (csv s)
  | _ => .error .typeErr

/-- Iterating / destructuring a JSON value as an array.  Non-array values
throw a TypeError when iterated (a JSON string would iterate per character
in JavaScript; no bank row or bank file in scope of the claims is a string,
and the model maps that case to the same import-aborting error). -/
def asArr : JValue → Except ErrKind (List JValue)
  | .arr xs => .ok xs
  | _ => .error .typeErr

/-- Positional cell access: array destructuring pads missing positions with
`undefined` and ignores extra cells. -/
def cell (cells : List JValue) (i : Nat) : JValue := cells.getD i .null

/-- Decode one term row
`[expression, reading, definition_tags, rules, score, glossary, sequence, term_tags]`. -/
def decodeTerm (cells : List JValue) : Except ErrKind JTerm := do
  let dt ← csvJ (cell cells 2)
  let rl ← csvJ (cell cells 3)
  let tt ← csvJ (cell cells 7)
  .ok { expression := cell cells 0, reading := cell cells 1,
        definition_tags := dt, rules := rl, score := cell cells 4,
        glossary := cell cells 5, sequence := cell cells 6, term_tags := tt }

/-- Decode one kanji row `[character, onyomi, kunyomi, tags, meanings, stats]`. -/
def decodeKanji (cells : List JValue) : Except ErrKind JKanji := do
  let ony ← csvJ (cell cells 1)
  let kun ← csvJ (cell cells 2)
  let tg ← csvJ (cell cells 3)
  .ok { character := cell cells 0, onyomi := ony, kunyomi := kun, tags := tg,
        meanings := cell cells 4, stats := cell cells 5 }

/-- Decode one tag row `[name, category, order, notes, score]`; no column is
inspected, so every arity is accepted. -/
def decodeTag (cells : List JValue) : JTag :=
  { name := cell cells 0, category := cell cells 1, order := cell cells 2,
    description := cell cells 3, score := cell cells 4 }

/-- Decode one frequency row `[expression, mode, data]`; every arity is
accepted. -/
def decodeMeta (cells : List JValue) : JMeta :=
  { expression := cell cells 0, mode := cell cells 1, data := cell cells 2 }

/-- Process the rows of one bank file, appending the decoded records to the
aggregate (the `switch (it.kind)` of `importSource`; an unrecognized kind —
impossible for `splitName` output — falls through doing nothing). -/
def applyBank (dict : JDict) (kind : String) (rows : List JValue) :
    Except ErrKind JDict :=
  if kind = "term" then do
    let rs ← rows.mapM (fun r => do decodeTerm (← asArr r))
    .ok { dict with terms := dict.terms ++ rs }
  else if kind = "kanji" then do
    let rs ← rows.mapM (fun r => do decodeKanji (← asArr r))
    .ok { dict with kanji := dict.kanji ++ rs }
  else if kind = "tag" then do
    let rs ← rows.mapM (fun r => do .ok (decodeTag (← asArr r)))
    .ok { dict with tags := dict.tags ++ rs }
  else if kind = "kanji_meta" then do
    let rs ← rows.mapM (fun r => do .ok (decodeMeta (← asArr r)))
    .ok { dict with kanji_meta := dict.kanji_meta ++ rs }
  else if kind = "term_meta" then do
    let rs ← rows.mapM (fun r => do .ok (decodeMeta (← asArr r)))
    .ok { dict with terms_meta := dict.terms_meta ++ rs }
  else
    .ok dict

/-- An archive source: a name (used only in error messages), an
insertion-ordered file listing mapping names to presence markers, and file
contents as already-parsed JSON values (the `JSON.parse(await source.file(n))`
composition; JSON syntax errors are outside the claims' scope). -/
structure JSource where
  name : String
  list : List (String × JValue)
  file : String → JValue

/-- Strict equality of the parsed `format` field with the literal `3`
(`index.format !== FORMAT`); only a numeric 3 compares equal. -/
def isFormat3 : JValue → Bool
  | .num n => n == 3
  | _ => false

/-- Property read on a parsed JSON value (`index.format`).  Reading a
property of a non-object yields `undefined` (for primitives) or throws (for
`null`); both are modelled as `null` here, and every claim reads fields of
object-shaped indexes only. -/
def getField (v : JValue) (k : String) : JValue :=
  match v with
  | .obj fields => (getAssoc fields k).getD .null
  | _ => .null

/-- Fold the classified bank files over the aggregate, reading and decoding
each in order. -/
def importFiles (src : JSource) : List Bank → JDict → Except ErrKind JDict
  | [], dict => .ok dict
  | b :: rest, dict => do
      let rows ← asArr (src.file b.file)
      let dict' ← applyBank dict b.kind rows
      importFiles src rest dict'

/-- The final tag sort of `importSource`
(`(a, b) => a.order !== b.order ? a.order - b.order : a.name.localeCompare(b.name)`)
needs numeric orders and string names to be meaningful; the model coerces
other shapes to `0` / `""` (no claim concerns the order of ill-typed tags,
and the sort never fails either way). -/
def jnum : JValue → Int
  | .num n => n
  | _ => 0

/-- String coercion used by the tag-sort comparator model. -/
def jstr : JValue → String
  | .str s => s
  | _ => ""

/-- Tag-list comparator: order ascending, then name. -/
def jtagLE (a b : JTag) : Bool :=
  decide (jnum a.order < jnum b.order) ||
    (jnum a.order == jnum b.order && !decide (jstr b.name < jstr a.name))

/-- Insert into a sorted tag list. -/
def insertJTag (t : JTag) : List JTag → List JTag
  | [] => [t]
  | x :: xs => if jtagLE t x then t :: x :: xs else x :: insertJTag t xs

/-- Stable sort of the decoded tag list. -/
def sortJTags : List JTag → List JTag
  | [] => []
  | x :: xs => insertJTag x (sortJTags xs)

/-- `importSource`: validate the index file's presence (by truthiness of the
listing entry) and its `format` field, then decode every classified bank
file in deterministic order and assemble the dictionary, sorting its tag
list last.  The call either fully succeeds or reports an error naming the
archive — no partial dictionary is returned. -/
def importSource (source : JSource) : Except ImpError JDict :=
  if !truthy ((getAssoc source.list "index.json").getD .null) then
    .error ⟨source.name, .missingIndex⟩
  else
    let index := source.file "index.json"
    if !isFormat3 (getField index "format") then
      .error ⟨source.name, .badFormat (getField index "format")⟩
    else
      let files := bankFiles (keysOf source.list)
      match importFiles source files
          ⟨index, [], [], [], [], []⟩ with
      | .error k => .error ⟨source.name, k⟩
      | .ok dict => .ok { dict with tags := sortJTags dict.tags }

-- ## The typed data model and the tag reconciler
--
-- These structures embed the TypeScript type declarations of `import.ts`
-- (`Index`, `Term`, `Kanji`, `Tag`, `Meta`, `Dictionary`).  `mergeTags`
-- operates on dictionaries that are well-typed in this sense; its in-place
-- mutation of terms, kanji and the shared tag map becomes explicit state
-- passing.

/-- Format of the index file. -/
structure Index where
  title : String
  format : Int
  revision : String
  sequenced : Bool
deriving DecidableEq

/-- Term from an imported dictionary. -/
structure Term where
  expression : String
  reading : String
  definition_tags : List String
  rules : List String
  score : Int
  glossary : List String
  sequence : Int
  term_tags : List String
deriving DecidableEq

/-- Kanji from an imported dictionary; `stats` is an insertion-ordered
string-to-string object. -/
structure Kanji where
  character : String
  onyomi : List String
  kunyomi : List String
  tags : List String
  meanings : List String
  stats : List (String × String)
deriving DecidableEq

/-- Tag for a kanji or term. -/
structure Tag where
  name : String
  category : String
  order : Int
  description : String
  score : Int
deriving DecidableEq

/-- Frequency metadata for kanji or terms. -/
structure Meta where
  expression : String
  mode : String
  data : Int
deriving DecidableEq

/-- The imported-dictionary aggregate. -/
structure Dictionary where
  index : Index
  terms : List Term
  kanji : List Kanji
  tags : List Tag
  terms_meta : List Meta
  kanji_meta : List Meta
deriving DecidableEq

/-- Configuration flags of `mergeTags`. -/
structure MergeArgs where
  deleteUnused : Bool
  deleteEmpty : Bool
deriving DecidableEq

/-- The default configuration (`optional({ deleteUnused: false, deleteEmpty:
false })`). -/
def defaultMergeArgs : MergeArgs := ⟨false, false⟩

/-- The mutable state threaded through `mergeTags`: the shared namespace
`tags`, the shared usage counts `tagUsage`, and the per-dictionary local
name-to-id cache `mapped`. -/
structure MState where
  tags : List (String × Tag)
  tagUsage : List (String × Nat)
  mapped : List (String × String)
deriving DecidableEq

/-- The initial reconciler state. -/
def initState : MState := ⟨[], [], []⟩

/-- `useTag`: bump a tag id's usage count. -/
def useTag (u : List (String × Nat)) (k : String) : List (String × Nat) :=
  setAssoc u k (((getAssoc u k).getD 0) + 1)

/-- The compatibility test of `mapTag` (`canMerge`): categories equal or one
empty, and descriptions equal or one empty.  `tag` is the candidate being
resolved, `current` the occupant of the probed id. -/
def canMerge (tag current : Tag) : Bool :=
  (tag.category == current.category || tag.category == "" || current.category == "") &&
    (tag.description == current.description || tag.description == "" ||
      current.description == "")

/-- The merge step of `mapTag` (`current.category ||= tag.category` etc.):
fill each falsy occupant field from the candidate, never touching the name. -/
def mergeInto (current tag : Tag) : Tag :=
  { current with
    category := if current.category = "" then tag.category else current.category,
    description := if current.description = "" then tag.description
      else current.description,
    order := if current.order = 0 then tag.order else current.order,
    score := if current.score = 0 then tag.score else current.score }

/-- `new Map(dict.tags.map((x) => [x.name, x]))`: lookup a defined tag by
name; for duplicate names the later definition wins, as with `Map`
construction. -/
def byNameGet (ts : List Tag) (n : String) : Option Tag :=
  ts.reverse.find? (fun t => t.name == n)

/-- The probe loop of `mapTag`: try `tagId tagName counter` for increasing
counters until the id is free (claim it) or compatibly occupied (merge).
The loop in the source runs unboundedly; `fuel` is an upper bound on the
number of probes, and `mapTagGo_succeeds` below shows that
`st.tags.length + 1` probes always suffice, so the fuelled function is the
source loop. -/
def mapTagGo (tag : Tag) (tagName : String) (used : Bool) :
    Nat → Nat → MState → Option (String × MState)
  | 0, _, _ => none
  | fuel + 1, counter, st =>
      let id := tagId tagName counter
      match getAssoc st.tags id with
      | none =>
          some (id, { st with
            tags := setAssoc st.tags id tag,
            mapped := setAssoc st.mapped tagName id,
            tagUsage := if used then useTag st.tagUsage id else st.tagUsage })
      | some current =>
          if canMerge tag current then
            some (id, { st with
              tags := setAssoc st.tags id (mergeInto current tag),
              mapped := setAssoc st.mapped tagName id,
              tagUsage := if used then useTag st.tagUsage id else st.tagUsage })
          else
            mapTagGo tag tagName used fuel (counter + 1) st

/-- `mapTag`: resolve a tag name to its unique id.  A cached local mapping is
reused when truthy (the source tests `if (mappedId)`, so a cached empty id —
possible only for the empty tag name — falls through and re-resolves);
otherwise the defined tag (or a freshly synthesized all-empty candidate) is
resolved through the probe loop.  The `none` fallback of the fuelled loop is
unreachable (`mapTagGo_succeeds`). -/
def mapTag (dictTags : List Tag) (tagName : String) (used : Bool) (st : MState) :
    String × MState :=
  let mappedId := (getAssoc st.mapped tagName).getD ""
  if mappedId != "" then
    (mappedId, { st with
      tagUsage := if used then useTag st.tagUsage mappedId else st.tagUsage })
  else
    let tag := (byNameGet dictTags tagName).getD
      { name := tagName, category := "", order := 0, description := "", score := 0 }
    match mapTagGo tag tagName used (st.tags.length + 1) 1 st with
    | some r => r
    | none => (tagName, st)

/-- Pass 1 of a dictionary: resolve every defined tag without marking it
used. -/
def seedTags (dictTags : List Tag) : List Tag → MState → MState
  | [], st => st
  | t :: ts, st => seedTags dictTags ts (mapTag dictTags t.name false st).2

/-- Resolve a list of referenced names left to right, marking each used
(`list.map((x) => mapTag(x, true))` with the shared state threaded through). -/
def mapNames (dictTags : List Tag) : List String → MState → List String × MState
  | [], st => ([], st)
  | n :: ns, st =>
      let (i, st1) := mapTag dictTags n true st
      let (is, st2) := mapNames dictTags ns st1
      (i :: is, st2)

/-- Rewrite the `stats` keys of a kanji, building the new object in key order
(`mappedStats[mapTag(key, true)] = it.stats[key]`; ids colliding after
resolution overwrite, as object assignment does). -/
def mapStats (dictTags : List Tag) :
    List (String × String) → List (String × String) → MState →
      List (String × String) × MState
  | [], acc, st => (acc, st)
  | (k, v) :: rest, acc, st =>
      let (id, st1) := mapTag dictTags k true st
      mapStats dictTags rest (setAssoc acc id v) st1

/-- Rewrite one term's tag references in place: `term_tags`, then
`definition_tags`, then `rules`, in the source's statement order. -/
def processTerm (dictTags : List Tag) (t : Term) (st : MState) : Term × MState :=
  let (tt, st1) := mapNames dictTags t.term_tags st
  let (dt, st2) := mapNames dictTags t.definition_tags st1
  let (rl, st3) := mapNames dictTags t.rules st2
  ({ t with term_tags := tt, definition_tags := dt, rules := rl }, st3)

/-- Rewrite every term of a dictionary. -/
def processTerms (dictTags : List Tag) : List Term → MState → List Term × MState
  | [], st => ([], st)
  | t :: ts, st =>
      let (t', st1) := processTerm dictTags t st
      let (ts', st2) := processTerms dictTags ts st1
      (t' :: ts', st2)

/-- Rewrite one kanji's tag references: the `tags` list, then the `stats`
keys. -/
def processKanji (dictTags : List Tag) (k : Kanji) (st : MState) : Kanji × MState :=
  let (tg, st1) := mapNames dictTags k.tags st
  let (stats', st2) := mapStats dictTags k.stats [] st1
  ({ k with tags := tg, stats := stats' }, st2)

/-- Rewrite every kanji of a dictionary. -/
def processKanjis (dictTags : List Tag) : List Kanji → MState → List Kanji × MState
  | [], st => ([], st)
  | k :: ks, st =>
      let (k', st1) := processKanji dictTags k st
      let (ks', st2) := processKanjis dictTags ks st1
      (k' :: ks', st2)

/-- Process one dictionary: a dictionary defining no tags is skipped entirely
(`if (!dict.tags.length) continue`); otherwise the local cache is reset, the
defined tags are seeded, and every term and kanji reference is rewritten. -/
def processDict (st : MState) (dict : Dictionary) : MState × Dictionary :=
  if dict.tags.length = 0 then (st, dict)
  else
    let st1 := seedTags dict.tags dict.tags { st with mapped := [] }
    let (terms', st2) := processTerms dict.tags dict.terms st1
    let (kanji', st3) := processKanjis dict.tags dict.kanji st2
    (st3, { dict with terms := terms', kanji := kanji' })

/-- Process the dictionary list in order. -/
def processDicts (st : MState) : List Dictionary → MState × List Dictionary
  | [] => (st, [])
  | d :: ds =>
      let (st1, d') := processDict st d
      let (st2, ds') := processDicts st1 ds
      (st2, d' :: ds')

/-- Is a stored tag an all-empty placeholder
(`!(val.category || val.description || val.order || val.score)`)? -/
def isEmptyTag (t : Tag) : Bool :=
  !(t.category != "" || t.description != "" || t.order != 0 || t.score != 0)

/-- The final cleanup loop: delete all-empty tags when `deleteEmpty` is set
and never-used tags when `deleteUnused` is set (`!tagUsage.get(key)`: a
missing or zero count means unused). -/
def cleanup (args : MergeArgs) (usage : List (String × Nat))
    (tags : List (String × Tag)) : List (String × Tag) :=
  tags.filter (fun kv =>
    !((args.deleteEmpty && isEmptyTag kv.2) ||
      (args.deleteUnused && ((getAssoc usage kv.1).getD 0 == 0))))

/-- `mergeTags`: reconcile the tag namespaces of all dictionaries.  Returns
the shared id-to-tag namespace and the dictionaries with their references
rewritten (the source mutates them in place and returns only the map). -/
def mergeTags (dicts : List Dictionary) (args : MergeArgs) :
    List (String × Tag) × List Dictionary :=
  let (st, dicts') := processDicts initState dicts
  (cleanup args st.tagUsage st.tags, dicts')

-- ## Association-list lemmas

theorem getAssoc_setAssoc_self {β : Type} (m : List (String × β)) (k : String)
    (v : β) : getAssoc (setAssoc m k v) k = some v := by
  induction m with
  | nil => simp [setAssoc, getAssoc, List.find?]
  | cons p rest ih =>
      rcases p with ⟨k', v'⟩
      by_cases h : k' = k
      · simp [setAssoc, h, getAssoc, List.find?]
      · have hb : (k' == k) = false := by simpa using h
        rw [setAssoc, hb]
        simp only [Bool.false_eq_true, if_false]
        simp only [getAssoc, List.find?, hb] at ih ⊢
        exact ih

theorem getAssoc_mem {β : Type} {m : List (String × β)} {k : String} {v : β}
    (h : getAssoc m k = some v) : (k, v) ∈ m := by
  unfold getAssoc at h
  rcases hf : m.find? (fun p => p.1 == k) with _ | p
  · rw [hf] at h; simp at h
  · rw [hf] at h
    have hv : p.2 = v := by simpa using h
    have hm := List.mem_of_find?_eq_some hf
    have hp := List.find?_some hf
    have hk : p.1 = k := by simpa using hp
    have : p = (k, v) := by
      rcases p with ⟨a, b⟩
      simp only at hk hv
      simp [hk, hv]
    rwa [this] at hm

theorem mem_setAssoc {β : Type} {m : List (String × β)} {k : String} {v : β}
    {p : String × β} (h : p ∈ setAssoc m k v) : p ∈ m ∨ p = (k, v) := by
  induction m with
  | nil =>
      simp only [setAssoc, List.mem_singleton] at h
      exact Or.inr h
  | cons q rest ih =>
      rcases q with ⟨k', v'⟩
      by_cases hk : k' = k
      · have hb : (k' == k) = true := by simpa using hk
        simp only [setAssoc, hb, if_true, List.mem_cons] at h
        rcases h with h | h
        · exact Or.inr h
        · exact Or.inl (List.mem_cons_of_mem _ h)
      · have hb : (k' == k) = false := by simpa using hk
        rw [setAssoc, hb] at h
        simp only [Bool.false_eq_true, if_false, List.mem_cons] at h
        rcases h with h | h
        · exact Or.inl (by simp [h])
        · rcases ih h with h | h
          · exact Or.inl (List.mem_cons_of_mem _ h)
          · exact Or.inr h

theorem keys_setAssoc_super {β : Type} (m : List (String × β)) (k : String)
    (v : β) : ∀ a ∈ keysOf m, a ∈ keysOf (setAssoc m k v) := by
  induction m with
  | nil => simp [keysOf]
  | cons q rest ih =>
      rcases q with ⟨k', v'⟩
      intro a ha
      by_cases hk : k' = k
      · have hb : (k' == k) = true := by simpa using hk
        simp only [setAssoc, hb, if_true]
        simp only [keysOf, List.map_cons, List.mem_cons] at ha ⊢
        rcases ha with ha | ha
        · exact Or.inl (by rw [ha, hk])
        · exact Or.inr ha
      · have hb : (k' == k) = false := by simpa using hk
        rw [setAssoc, hb]
        simp only [Bool.false_eq_true, if_false]
        simp only [keysOf, List.map_cons, List.mem_cons] at ha ⊢
        rcases ha with ha | ha
        · exact Or.inl ha
        · exact Or.inr (ih a ha)

theorem key_mem_setAssoc {β : Type} (m : List (String × β)) (k : String)
    (v : β) : k ∈ keysOf (setAssoc m k v) := by
  induction m with
  | nil => simp [setAssoc, keysOf]
  | cons q rest ih =>
      rcases q with ⟨k', v'⟩
      by_cases hk : k' = k
      · have hb : (k' == k) = true := by simpa using hk
        simp [setAssoc, hb, keysOf]
      · have hb : (k' == k) = false := by simpa using hk
        rw [setAssoc, hb]
        simp only [Bool.false_eq_true, if_false, keysOf, List.map_cons, List.mem_cons]
        exact Or.inr ih

theorem getAssoc_isSome_iff {β : Type} (m : List (String × β)) (k : String) :
    (getAssoc m k).isSome ↔ k ∈ keysOf m := by
  induction m with
  | nil => simp [getAssoc, keysOf, List.find?]
  | cons q rest ih =>
      rcases q with ⟨k', v'⟩
      by_cases hk : k' = k
      · have hb : (k' == k) = true := by simpa using hk
        simp [getAssoc, List.find?, hb, keysOf, hk]
      · have hb : (k' == k) = false := by simpa using hk
        simp only [getAssoc, List.find?, hb, keysOf, List.map_cons, List.mem_cons]
        simp only [getAssoc, keysOf] at ih
        rw [ih]
        constructor
        · exact Or.inr
        · intro h
          rcases h with h | h
          · exact absurd h.symm hk
          · exact h

theorem keysOf_length {β : Type} (m : List (String × β)) :
    (keysOf m).length = m.length := by
  simp [keysOf]

-- ## Reconciler invariants

/-- Every cached local mapping points at an id present in the shared
namespace. -/
def InvM (st : MState) : Prop :=
  ∀ p ∈ st.mapped, p.2 ∈ keysOf st.tags

/-- Every stored tag sits under its own display name or under a
collision-suffixed form of it (claim C8's invariant). -/
def WfIds (m : List (String × Tag)) : Prop :=
  ∀ p ∈ m, p.1 = p.2.name ∨ ∃ k, 2 ≤ k ∧ p.1 = p.2.name ++ "-" ++ natStr k

/-- Relation between a reconciler state and any later one: namespace keys
only grow, and both invariants are preserved. -/
def Steps (st st' : MState) : Prop :=
  (∀ a ∈ keysOf st.tags, a ∈ keysOf st'.tags) ∧
  (InvM st → InvM st') ∧ (WfIds st.tags → WfIds st'.tags)

theorem Steps_refl (st : MState) : Steps st st :=
  ⟨fun _ ha => ha, id, id⟩

theorem Steps_trans {a b c : MState} (h1 : Steps a b) (h2 : Steps b c) :
    Steps a c :=
  ⟨fun x hx => h2.1 x (h1.1 x hx), fun h => h2.2.1 (h1.2.1 h),
   fun h => h2.2.2 (h1.2.2 h)⟩

theorem byNameGet_name {ts : List Tag} {n : String} {t : Tag}
    (h : byNameGet ts n = some t) : t.name = n := by
  have := List.find?_some h
  simpa using this

theorem candidate_name (dt : List Tag) (n : String) :
    ((byNameGet dt n).getD
      { name := n, category := "", order := 0, description := "", score := 0 }).name
        = n := by
  rcases h : byNameGet dt n with _ | t
  · simp
  · simpa using byNameGet_name h

-- ## Probe-loop characterization

theorem mapTagGo_some_spec (tag : Tag) (name : String) (used : Bool) :
    ∀ fuel counter st id st', 1 ≤ counter →
      mapTagGo tag name used fuel counter st = some (id, st') →
      (∃ k, 1 ≤ k ∧ id = tagId name k) ∧
      st'.mapped = setAssoc st.mapped name id ∧
      (st'.tags = setAssoc st.tags id tag ∨
        ∃ cur, getAssoc st.tags id = some cur ∧ canMerge tag cur = true ∧
          st'.tags = setAssoc st.tags id (mergeInto cur tag)) := by
  intro fuel
  induction fuel with
  | zero => intro counter st id st' hc h; simp [mapTagGo] at h
  | succ fuel ih =>
      intro counter st id st' hc h
      simp only [mapTagGo] at h
      rcases hget : getAssoc st.tags (tagId name counter) with _ | cur
      · rw [hget] at h
        simp only [Option.some.injEq, Prod.mk.injEq] at h
        obtain ⟨hid, hst⟩ := h
        subst hid
        refine ⟨⟨counter, hc, rfl⟩, ?_, Or.inl ?_⟩
        · rw [← hst]
        · rw [← hst]
      · rw [hget] at h
        simp only at h
        by_cases hcm : canMerge tag cur = true
        · rw [if_pos hcm] at h
          simp only [Option.some.injEq, Prod.mk.injEq] at h
          obtain ⟨hid, hst⟩ := h
          subst hid
          refine ⟨⟨counter, hc, rfl⟩, ?_, Or.inr ⟨cur, hget, hcm, ?_⟩⟩
          · rw [← hst]
          · rw [← hst]
        · rw [if_neg hcm] at h
          exact ih (counter + 1) st id st' (by omega) h

theorem mapTagGo_none_occupied (tag : Tag) (name : String) (used : Bool) :
    ∀ fuel counter st, mapTagGo tag name used fuel counter st = none →
      ∀ k, counter ≤ k → k < counter + fuel → tagId name k ∈ keysOf st.tags := by
  intro fuel
  induction fuel with
  | zero => intro counter st _ k h1 h2; omega
  | succ fuel ih =>
      intro counter st h k h1 h2
      simp only [mapTagGo] at h
      rcases hget : getAssoc st.tags (tagId name counter) with _ | cur
      · rw [hget] at h; simp at h
      · rw [hget] at h
        simp only at h
        by_cases hcm : canMerge tag cur = true
        · rw [if_pos hcm] at h; simp at h
        · rw [if_neg hcm] at h
          by_cases hk : k = counter
          · subst hk
            exact (getAssoc_isSome_iff st.tags (tagId name k)).mp (by simp [hget])
          · exact ih (counter + 1) st h k (by omega) (by omega)

theorem mapTagGo_succeeds (tag : Tag) (name : String) (used : Bool) (st : MState) :
    (mapTagGo tag name used (st.tags.length + 1) 1 st).isSome := by
  rcases hgo : mapTagGo tag name used (st.tags.length + 1) 1 st with _ | r
  · exfalso
    have hocc := mapTagGo_none_occupied tag name used _ 1 st hgo
    set cands : List String :=
      (List.range' 1 (st.tags.length + 1)).map (tagId name) with hcands
    have hsub : cands ⊆ keysOf st.tags := by
      intro x hx
      rw [hcands] at hx
      rcases List.mem_map.mp hx with ⟨k, hk, hxk⟩
      rcases List.mem_range'.mp hk with ⟨i, hi, hki⟩
      subst hxk
      exact hocc k (by omega) (by omega)
    have hnd : cands.Nodup := by
      rw [hcands]
      refine List.Nodup.map_on ?_ (List.nodup_range' 1 (st.tags.length + 1))
      intro x hx y hy hxy
      rcases List.mem_range'.mp hx with ⟨i, hi, hxi⟩
      rcases List.mem_range'.mp hy with ⟨j, hj, hyj⟩
      exact tagId_inj (by omega) (by omega) hxy
    have hlen := (List.Nodup.subperm hnd hsub).length_le
    rw [hcands] at hlen
    simp only [List.length_map, List.length_range'] at hlen
    rw [keysOf_length] at hlen
    omega
  · simp

theorem mergeInto_name (cur tag : Tag) : (mergeInto cur tag).name = cur.name := rfl

theorem mapTag_spec {dt : List Tag} {n : String} {u : Bool} {st : MState}
    {id : String} {st' : MState} (h : mapTag dt n u st = (id, st')) :
    Steps st st' ∧
      (InvM st → id ∈ keysOf st'.tags ∧ getAssoc st'.mapped n = some id) := by
  unfold mapTag at h
  by_cases hmid : ((getAssoc st.mapped n).getD "" != "") = true
  · rw [if_pos hmid] at h
    simp only [Prod.mk.injEq] at h
    obtain ⟨hid, hst⟩ := h
    have htags : st'.tags = st.tags := by rw [← hst]
    have hmap : st'.mapped = st.mapped := by rw [← hst]
    rcases hg : getAssoc st.mapped n with _ | mid
    · exfalso
      rw [hg] at hmid
      simp at hmid
    · rw [hg] at hid
      simp only [Option.getD_some] at hid
      have hsome : getAssoc st.mapped n = some id := by rw [hg, hid]
      constructor
      · exact ⟨fun a ha => htags ▸ ha, fun hi => by
          intro p hp
          rw [htags]
          exact hi p (hmap ▸ hp), fun hw => htags ▸ hw⟩
      · intro hi
        constructor
        · rw [htags]
          exact hi (n, id) (getAssoc_mem hsome)
        · rw [hmap]
          exact hsome
  · rw [if_neg hmid] at h
    dsimp only at h
    set tag := (byNameGet dt n).getD
      { name := n, category := "", order := 0, description := "", score := 0 }
      with htagdef
    have htagname : tag.name = n := candidate_name dt n
    have hsucc := mapTagGo_succeeds tag n u st
    rcases hgo : mapTagGo tag n u (st.tags.length + 1) 1 st with _ | r
    · rw [hgo] at hsucc; simp at hsucc
    · rcases r with ⟨id0, st0⟩
      rw [hgo] at h
      simp only [Prod.mk.injEq] at h
      obtain ⟨hid, hst⟩ := h
      subst hid
      subst hst
      obtain ⟨⟨k, hk, hidk⟩, hmapped, htags⟩ :=
        mapTagGo_some_spec tag n u _ 1 st id0 st0 (by omega) hgo
      have hkeysub : ∀ a ∈ keysOf st.tags, a ∈ keysOf st0.tags := by
        intro a ha
        rcases htags with htags | ⟨cur, _, _, htags⟩ <;>
          exact htags ▸ keys_setAssoc_super _ _ _ a ha
      have hidmem : id0 ∈ keysOf st0.tags := by
        rcases htags with htags | ⟨cur, _, _, htags⟩ <;>
          exact htags ▸ key_mem_setAssoc _ _ _
      constructor
      · refine ⟨hkeysub, ?_, ?_⟩
        · intro hi p hp
          rw [hmapped] at hp
          rcases mem_setAssoc hp with hp | hp
          · exact hkeysub _ (hi p hp)
          · rw [hp]
            exact hidmem
        · intro hw p hp
          rcases htags with htags | ⟨cur, hcur, hcm, htags⟩
          · rw [htags] at hp
            rcases mem_setAssoc hp with hp | hp
            · exact hw p hp
            · rw [hp]
              simp only
              rw [htagname]
              by_cases hk1 : k = 1
              · subst hk1
                simp only [tagId] at hidk
                simp [hidk]
              · right
                exact ⟨k, by omega, by simp [hidk, tagId, hk1]⟩
          · rw [htags] at hp
            rcases mem_setAssoc hp with hp | hp
            · exact hw p hp
            · rw [hp]
              simp only [mergeInto_name]
              exact hw (id0, cur) (getAssoc_mem hcur)
      · intro _
        refine ⟨hidmem, ?_⟩
        rw [hmapped]
        exact getAssoc_setAssoc_self _ _ _

theorem getAssoc_setAssoc_ne {β : Type} (m : List (String × β)) {k k' : String}
    (v : β) (h : k' ≠ k) : getAssoc (setAssoc m k v) k' = getAssoc m k' := by
  induction m with
  | nil =>
      have hb : (k == k') = false := by simpa using fun he => h he.symm
      simp [setAssoc, getAssoc, List.find?, hb]
  | cons q rest ih =>
      rcases q with ⟨k0, v0⟩
      by_cases h0 : k0 = k
      · have hb : (k0 == k) = true := by simpa using h0
        have hb1 : (k == k') = false := by simpa using fun he => h he.symm
        have hb2 : (k0 == k') = false := by
          simpa using fun he => h (he.symm.trans h0)
        simp [setAssoc, hb, getAssoc, List.find?, hb1, hb2]
      · have hb : (k0 == k) = false := by simpa using h0
        rw [setAssoc, hb]
        simp only [Bool.false_eq_true, if_false]
        by_cases h2 : k0 = k'
        · have hb2 : (k0 == k') = true := by simpa using h2
          simp [getAssoc, List.find?, hb2]
        · have hb2 : (k0 == k') = false := by simpa using h2
          simp only [getAssoc, List.find?, hb2] at ih ⊢
          exact ih

theorem setAssoc_isSome_persist {β : Type} (m : List (String × β)) (k m' : String)
    (v : β) (h : (getAssoc m m').isSome) : (getAssoc (setAssoc m k v) m').isSome := by
  by_cases he : m' = k
  · subst he
    rw [getAssoc_setAssoc_self]
    rfl
  · rw [getAssoc_setAssoc_ne m v he]
    exact h

theorem mapTag_mapped_persist {dt : List Tag} {n : String} {u : Bool} {st : MState}
    {id : String} {st' : MState} (h : mapTag dt n u st = (id, st')) :
    ∀ m, (getAssoc st.mapped m).isSome → (getAssoc st'.mapped m).isSome := by
  intro m hm
  unfold mapTag at h
  by_cases hmid : ((getAssoc st.mapped n).getD "" != "") = true
  · rw [if_pos hmid] at h
    simp only [Prod.mk.injEq] at h
    obtain ⟨_, hst⟩ := h
    have : st'.mapped = st.mapped := by rw [← hst]
    rwa [this]
  · rw [if_neg hmid] at h
    dsimp only at h
    set tag := (byNameGet dt n).getD
      { name := n, category := "", order := 0, description := "", score := 0 }
    rcases hgo : mapTagGo tag n u (st.tags.length + 1) 1 st with _ | r
    · have hsucc := mapTagGo_succeeds tag n u st
      rw [hgo] at hsucc; simp at hsucc
    · rcases r with ⟨id0, st0⟩
      rw [hgo] at h
      simp only [Prod.mk.injEq] at h
      obtain ⟨hid, hst⟩ := h
      subst hid
      subst hst
      obtain ⟨_, hmapped, _⟩ :=
        mapTagGo_some_spec tag n u _ 1 st id0 st0 (by omega) hgo
      rw [hmapped]
      exact setAssoc_isSome_persist _ _ _ _ hm

-- ## Reference-rewriting relations (the reconciled shape of terms and kanji)

/-- The reconciled form of one term: non-reference fields are untouched, the
three reference lists are rewritten element by element into ids drawn from
`ks`. -/
def TermResolved (ks : List String) (t t' : Term) : Prop :=
  t'.expression = t.expression ∧ t'.reading = t.reading ∧ t'.score = t.score ∧
  t'.glossary = t.glossary ∧ t'.sequence = t.sequence ∧
  t'.term_tags.length = t.term_tags.length ∧
  t'.definition_tags.length = t.definition_tags.length ∧
  t'.rules.length = t.rules.length ∧
  (∀ x ∈ t'.term_tags, x ∈ ks) ∧ (∀ x ∈ t'.definition_tags, x ∈ ks) ∧
  (∀ x ∈ t'.rules, x ∈ ks)

/-- The reconciled form of one kanji: non-reference fields untouched, the
`tags` list rewritten element by element, the `stats` keys rewritten (ids
colliding after resolution may shrink the map, so only membership is
claimed for keys). -/
def KanjiResolved (ks : List String) (k k' : Kanji) : Prop :=
  k'.character = k.character ∧ k'.onyomi = k.onyomi ∧ k'.kunyomi = k.kunyomi ∧
  k'.meanings = k.meanings ∧ k'.tags.length = k.tags.length ∧
  (∀ x ∈ k'.tags, x ∈ ks) ∧ (∀ p ∈ k'.stats, p.1 ∈ ks)

/-- The reconciled form of one dictionary with a nonempty tag list. -/
def DictResolved (ks : List String) (d d' : Dictionary) : Prop :=
  d'.index = d.index ∧ d'.tags = d.tags ∧ d'.terms_meta = d.terms_meta ∧
  d'.kanji_meta = d.kanji_meta ∧
  List.Forall₂ (TermResolved ks) d.terms d'.terms ∧
  List.Forall₂ (KanjiResolved ks) d.kanji d'.kanji

theorem TermResolved_mono {ks ks' : List String} {t t' : Term}
    (h : TermResolved ks t t') (hsub : ∀ x ∈ ks, x ∈ ks') :
    TermResolved ks' t t' := by
  obtain ⟨h1, h2, h3, h4, h5, h6, h7, h8, h9, h10, h11⟩ := h
  exact ⟨h1, h2, h3, h4, h5, h6, h7, h8,
    fun x hx => hsub x (h9 x hx), fun x hx => hsub x (h10 x hx),
    fun x hx => hsub x (h11 x hx)⟩

theorem KanjiResolved_mono {ks ks' : List String} {k k' : Kanji}
    (h : KanjiResolved ks k k') (hsub : ∀ x ∈ ks, x ∈ ks') :
    KanjiResolved ks' k k' := by
  obtain ⟨h1, h2, h3, h4, h5, h6, h7⟩ := h
  exact ⟨h1, h2, h3, h4, h5, fun x hx => hsub x (h6 x hx),
    fun p hp => hsub p.1 (h7 p hp)⟩

theorem DictResolved_mono {ks ks' : List String} {d d' : Dictionary}
    (h : DictResolved ks d d') (hsub : ∀ x ∈ ks, x ∈ ks') :
    DictResolved ks' d d' := by
  obtain ⟨h1, h2, h3, h4, h5, h6⟩ := h
  exact ⟨h1, h2, h3, h4,
    List.Forall₂.imp (fun _ _ ht => TermResolved_mono ht hsub) h5,
    List.Forall₂.imp (fun _ _ hk => KanjiResolved_mono hk hsub) h6⟩

-- ## Lifting the characterization through the reconciler

theorem mapNames_spec (dt : List Tag) :
    ∀ ns st is st', mapNames dt ns st = (is, st') →
      Steps st st' ∧
      (∀ m, (getAssoc st.mapped m).isSome → (getAssoc st'.mapped m).isSome) ∧
      is.length = ns.length ∧
      (InvM st → ∀ x ∈ is, x ∈ keysOf st'.tags) := by
  intro ns
  induction ns with
  | nil =>
      intro st is st' h
      simp only [mapNames, Prod.mk.injEq] at h
      obtain ⟨rfl, rfl⟩ := h
      exact ⟨Steps_refl st, fun m hm => hm, rfl, fun _ x hx => absurd hx (by simp)⟩
  | cons n ns ih =>
      intro st is st' h
      simp only [mapNames] at h
      rcases hm : mapTag dt n true st with ⟨i, st1⟩
      rw [hm] at h
      simp only at h
      rcases hr : mapNames dt ns st1 with ⟨is2, st2⟩
      rw [hr] at h
      simp only [Prod.mk.injEq] at h
      obtain ⟨rfl, rfl⟩ := h
      obtain ⟨hsteps1, hextra1⟩ := mapTag_spec hm
      obtain ⟨hsteps2, hpersist2, hlen2, hmem2⟩ := ih st1 is2 st2 hr
      refine ⟨Steps_trans hsteps1 hsteps2,
        fun m hmm => hpersist2 m (mapTag_mapped_persist hm m hmm),
        by simp [hlen2], ?_⟩
      intro hi x hx
      rcases List.mem_cons.mp hx with hx | hx
      · subst hx
        exact hsteps2.1 x ((hextra1 hi).1)
      · exact hmem2 (hsteps1.2.1 hi) x hx

theorem mapStats_spec (dt : List Tag) :
    ∀ ps acc st acc' st', mapStats dt ps acc st = (acc', st') →
      Steps st st' ∧
      (∀ m, (getAssoc st.mapped m).isSome → (getAssoc st'.mapped m).isSome) ∧
      (InvM st → (∀ p ∈ acc, p.1 ∈ keysOf st.tags) →
        ∀ p ∈ acc', p.1 ∈ keysOf st'.tags) := by
  intro ps
  induction ps with
  | nil =>
      intro acc st acc' st' h
      simp only [mapStats, Prod.mk.injEq] at h
      obtain ⟨rfl, rfl⟩ := h
      exact ⟨Steps_refl st, fun m hm => hm, fun _ hacc => hacc⟩
  | cons kv rest ih =>
      rcases kv with ⟨k, v⟩
      intro acc st acc' st' h
      simp only [mapStats] at h
      rcases hm : mapTag dt k true st with ⟨id, st1⟩
      rw [hm] at h
      simp only at h
      obtain ⟨hsteps1, hextra1⟩ := mapTag_spec hm
      obtain ⟨hsteps2, hpersist2, hmem2⟩ := ih (setAssoc acc id v) st1 acc' st' h
      refine ⟨Steps_trans hsteps1 hsteps2,
        fun m hmm => hpersist2 m (mapTag_mapped_persist hm m hmm), ?_⟩
      intro hi hacc p hp
      refine hmem2 (hsteps1.2.1 hi) ?_ p hp
      intro q hq
      rcases mem_setAssoc hq with hq | hq
      · exact hsteps1.1 _ (hacc q hq)
      · rw [hq]
        exact (hextra1 hi).1

theorem processTerm_spec {dt : List Tag} {t : Term} {st : MState} {t' : Term}
    {st' : MState} (h : processTerm dt t st = (t', st')) :
    Steps st st' ∧
    (∀ m, (getAssoc st.mapped m).isSome → (getAssoc st'.mapped m).isSome) ∧
    (InvM st → TermResolved (keysOf st'.tags) t t') := by
  unfold processTerm at h
  rcases h1 : mapNames dt t.term_tags st with ⟨tt, st1⟩
  rw [h1] at h
  simp only at h
  rcases h2 : mapNames dt t.definition_tags st1 with ⟨dtg, st2⟩
  rw [h2] at h
  simp only at h
  rcases h3 : mapNames dt t.rules st2 with ⟨rl, st3⟩
  rw [h3] at h
  simp only [Prod.mk.injEq] at h
  obtain ⟨ht', hst'⟩ := h
  subst hst'
  obtain ⟨s1, p1, l1, m1⟩ := mapNames_spec dt _ _ _ _ h1
  obtain ⟨s2, p2, l2, m2⟩ := mapNames_spec dt _ _ _ _ h2
  obtain ⟨s3, p3, l3, m3⟩ := mapNames_spec dt _ _ _ _ h3
  refine ⟨Steps_trans s1 (Steps_trans s2 s3),
    fun m hm => p3 m (p2 m (p1 m hm)), ?_⟩
  intro hi
  have hi1 : InvM st1 := s1.2.1 hi
  have hi2 : InvM st2 := s2.2.1 hi1
  rw [← ht']
  refine ⟨rfl, rfl, rfl, rfl, rfl, l1, l2, l3, ?_, ?_, ?_⟩
  · intro x hx
    exact s3.1 x (s2.1 x (m1 hi x hx))
  · intro x hx
    exact s3.1 x (m2 hi1 x hx)
  · intro x hx
    exact m3 hi2 x hx

theorem processTerms_spec (dt : List Tag) :
    ∀ ts st ts' st', processTerms dt ts st = (ts', st') →
      Steps st st' ∧
      (∀ m, (getAssoc st.mapped m).isSome → (getAssoc st'.mapped m).isSome) ∧
      (InvM st → List.Forall₂ (TermResolved (keysOf st'.tags)) ts ts') := by
  intro ts
  induction ts with
  | nil =>
      intro st ts' st' h
      simp only [processTerms, Prod.mk.injEq] at h
      obtain ⟨rfl, rfl⟩ := h
      exact ⟨Steps_refl st, fun m hm => hm, fun _ => List.Forall₂.nil⟩
  | cons t ts ih =>
      intro st ts' st' h
      simp only [processTerms] at h
      rcases h1 : processTerm dt t st with ⟨t1, st1⟩
      rw [h1] at h
      simp only at h
      rcases h2 : processTerms dt ts st1 with ⟨ts2, st2⟩
      rw [h2] at h
      simp only [Prod.mk.injEq] at h
      obtain ⟨rfl, rfl⟩ := h
      obtain ⟨s1, p1, r1⟩ := processTerm_spec h1
      obtain ⟨s2, p2, r2⟩ := ih st1 ts2 st2 h2
      refine ⟨Steps_trans s1 s2, fun m hm => p2 m (p1 m hm), ?_⟩
      intro hi
      exact List.Forall₂.cons (TermResolved_mono (r1 hi) s2.1) (r2 (s1.2.1 hi))

theorem processKanji_spec {dt : List Tag} {k : Kanji} {st : MState} {k' : Kanji}
    {st' : MState} (h : processKanji dt k st = (k', st')) :
    Steps st st' ∧
    (∀ m, (getAssoc st.mapped m).isSome → (getAssoc st'.mapped m).isSome) ∧
    (InvM st → KanjiResolved (keysOf st'.tags) k k') := by
  unfold processKanji at h
  rcases h1 : mapNames dt k.tags st with ⟨tg, st1⟩
  rw [h1] at h
  simp only at h
  rcases h2 : mapStats dt k.stats [] st1 with ⟨stats2, st2⟩
  rw [h2] at h
  simp only [Prod.mk.injEq] at h
  obtain ⟨hk', hst'⟩ := h
  subst hst'
  obtain ⟨s1, p1, l1, m1⟩ := mapNames_spec dt _ _ _ _ h1
  obtain ⟨s2, p2, m2⟩ := mapStats_spec dt _ _ _ _ _ h2
  refine ⟨Steps_trans s1 s2, fun m hm => p2 m (p1 m hm), ?_⟩
  intro hi
  have hi1 : InvM st1 := s1.2.1 hi
  rw [← hk']
  refine ⟨rfl, rfl, rfl, rfl, l1, ?_, ?_⟩
  · intro x hx
    exact s2.1 x (m1 hi x hx)
  · intro p hp
    exact m2 hi1 (fun q hq => absurd hq (by simp)) p hp

theorem processKanjis_spec (dt : List Tag) :
    ∀ ks st ks' st', processKanjis dt ks st = (ks', st') →
      Steps st st' ∧
      (∀ m, (getAssoc st.mapped m).isSome → (getAssoc st'.mapped m).isSome) ∧
      (InvM st → List.Forall₂ (KanjiResolved (keysOf st'.tags)) ks ks') := by
  intro ks
  induction ks with
  | nil =>
      intro st ks' st' h
      simp only [processKanjis, Prod.mk.injEq] at h
      obtain ⟨rfl, rfl⟩ := h
      exact ⟨Steps_refl st, fun m hm => hm, fun _ => List.Forall₂.nil⟩
  | cons k ks ih =>
      intro st ks' st' h
      simp only [processKanjis] at h
      rcases h1 : processKanji dt k st with ⟨k1, st1⟩
      rw [h1] at h
      simp only at h
      rcases h2 : processKanjis dt ks st1 with ⟨ks2, st2⟩
      rw [h2] at h
      simp only [Prod.mk.injEq] at h
      obtain ⟨rfl, rfl⟩ := h
      obtain ⟨s1, p1, r1⟩ := processKanji_spec h1
      obtain ⟨s2, p2, r2⟩ := ih st1 ks2 st2 h2
      refine ⟨Steps_trans s1 s2, fun m hm => p2 m (p1 m hm), ?_⟩
      intro hi
      exact List.Forall₂.cons (KanjiResolved_mono (r1 hi) s2.1) (r2 (s1.2.1 hi))

theorem seedTags_spec (dt : List Tag) :
    ∀ ts st, Steps st (seedTags dt ts st) ∧
      (∀ m, (getAssoc st.mapped m).isSome →
        (getAssoc (seedTags dt ts st).mapped m).isSome) ∧
      (InvM st → ∀ t ∈ ts,
        (getAssoc (seedTags dt ts st).mapped t.name).isSome) := by
  intro ts
  induction ts with
  | nil =>
      intro st
      exact ⟨Steps_refl st, fun m hm => hm, fun _ t ht => absurd ht (by simp)⟩
  | cons t ts ih =>
      intro st
      rcases hm : mapTag dt t.name false st with ⟨id, st1⟩
      have hseed : seedTags dt (t :: ts) st = seedTags dt ts st1 := by
        simp only [seedTags, hm]
      obtain ⟨s1, hextra1⟩ := mapTag_spec hm
      obtain ⟨s2, p2, m2⟩ := ih st1
      rw [hseed]
      refine ⟨Steps_trans s1 s2,
        fun m hmm => p2 m (mapTag_mapped_persist hm m hmm), ?_⟩
      intro hi t0 ht0
      rcases List.mem_cons.mp ht0 with ht0 | ht0
      · subst ht0
        exact p2 t0.name (by simp [(hextra1 hi).2])
      · exact m2 (s1.2.1 hi) t0 ht0

theorem processDict_spec {st : MState} {d : Dictionary} {st' : MState}
    {d' : Dictionary} (h : processDict st d = (st', d')) :
    Steps st st' ∧
    (d.tags.length = 0 → st' = st ∧ d' = d) ∧
    (d.tags.length ≠ 0 → DictResolved (keysOf st'.tags) d d') := by
  unfold processDict at h
  by_cases hz : d.tags.length = 0
  · rw [if_pos hz] at h
    simp only [Prod.mk.injEq] at h
    obtain ⟨rfl, rfl⟩ := h
    exact ⟨Steps_refl st, fun _ => ⟨rfl, rfl⟩, fun hc => absurd hz hc⟩
  · rw [if_neg hz] at h
    dsimp only at h
    rcases ht : processTerms d.tags d.terms
        (seedTags d.tags d.tags { st with mapped := [] }) with ⟨terms', st2⟩
    rw [ht] at h
    simp only at h
    rcases hk : processKanjis d.tags d.kanji st2 with ⟨kanji', st3⟩
    rw [hk] at h
    simp only [Prod.mk.injEq] at h
    obtain ⟨rfl, rfl⟩ := h
    have hreset : Steps st { st with mapped := [] } := by
      refine ⟨fun a ha => ha, fun _ p hp => absurd hp (by simp), fun hw => hw⟩
    have hresetInv : InvM { st with mapped := [] } := fun p hp => absurd hp (by simp)
    obtain ⟨sseed, pseed, mseed⟩ := seedTags_spec d.tags d.tags { st with mapped := [] }
    obtain ⟨sterms, pterms, rterms⟩ := processTerms_spec d.tags _ _ _ _ ht
    obtain ⟨skanjis, pkanjis, rkanjis⟩ := processKanjis_spec d.tags _ _ _ _ hk
    have hInv2 : InvM st2 := sterms.2.1 (sseed.2.1 hresetInv)
    refine ⟨Steps_trans hreset (Steps_trans sseed (Steps_trans sterms skanjis)),
      fun hzz => absurd hzz hz, ?_⟩
    intro _
    refine ⟨rfl, rfl, rfl, rfl, ?_, ?_⟩
    · exact List.Forall₂.imp (fun _ _ hr => TermResolved_mono hr skanjis.1)
        (rterms (sseed.2.1 hresetInv))
    · exact rkanjis hInv2

theorem processDicts_spec :
    ∀ ds st st' ds', processDicts st ds = (st', ds') →
      Steps st st' ∧
      List.Forall₂ (fun d d' =>
        (d.tags.length = 0 → d' = d) ∧
        (d.tags.length ≠ 0 → DictResolved (keysOf st'.tags) d d')) ds ds' := by
  intro ds
  induction ds with
  | nil =>
      intro st st' ds' h
      simp only [processDicts, Prod.mk.injEq] at h
      obtain ⟨rfl, rfl⟩ := h
      exact ⟨Steps_refl st, List.Forall₂.nil⟩
  | cons d ds ih =>
      intro st st' ds' h
      simp only [processDicts] at h
      rcases h1 : processDict st d with ⟨st1, d1⟩
      rw [h1] at h
      simp only at h
      rcases h2 : processDicts st1 ds with ⟨st2, ds2⟩
      rw [h2] at h
      simp only [Prod.mk.injEq] at h
      obtain ⟨rfl, rfl⟩ := h
      obtain ⟨s1, hz1, hr1⟩ := processDict_spec h1
      obtain ⟨s2, hr2⟩ := ih st1 st2 ds2 h2
      refine ⟨Steps_trans s1 s2, List.Forall₂.cons ⟨fun hz => (hz1 hz).2, ?_⟩ hr2⟩
      intro hnz
      exact DictResolved_mono (hr1 hnz) s2.1

theorem processDicts_append (l1 l2 : List Dictionary) :
    ∀ st, processDicts st (l1 ++ l2) =
      ((processDicts (processDicts st l1).1 l2).1,
        (processDicts st l1).2 ++ (processDicts (processDicts st l1).1 l2).2) := by
  induction l1 with
  | nil => intro st; simp [processDicts]
  | cons d ds ih =>
      intro st
      simp only [List.cons_append, processDicts]
      rcases h1 : processDict st d with ⟨st1, d1⟩
      simp only [List.append_eq, ih st1]

theorem cleanup_default (u : List (String × Nat)) (m : List (String × Tag)) :
    cleanup defaultMergeArgs u m = m := by
  unfold cleanup defaultMergeArgs
  simp

theorem cleanup_mem {args : MergeArgs} {u : List (String × Nat)}
    {m : List (String × Tag)} {p : String × Tag} (h : p ∈ cleanup args u m) :
    p ∈ m :=
  List.mem_of_mem_filter h

-- ## Import-error helper lemmas

theorem importSource_missing_index {src : JSource}
    (h : truthy ((getAssoc src.list "index.json").getD .null) = false) :
    importSource src = .error ⟨src.name, .missingIndex⟩ := by
  unfold importSource
  rw [h]
  rfl

theorem importSource_bad_format {src : JSource}
    (h1 : truthy ((getAssoc src.list "index.json").getD .null) = true)
    (h2 : isFormat3 (getField (src.file "index.json") "format") = false) :
    importSource src = .error
      ⟨src.name, .badFormat (getField (src.file "index.json") "format")⟩ := by
  unfold importSource
  rw [h1]
  simp only [Bool.not_true, Bool.false_eq_true, if_false]
  rw [h2]
  rfl

-- ## Concrete example sources

/-- An archive whose listing has no index entry at all. -/
def noIndexSrc : JSource :=
  { name := "noidx", list := [("data.json", .bool true)], file := fun _ => .null }

/-- An archive whose index declares `format: 2`. -/
def format2Src : JSource :=
  { name := "format2",
    list := [("index.json", .obj [("format", .num 2)])],
    file := fun n => if n = "index.json" then .obj [("format", .num 2)] else .null }

/-- An archive whose listing contains the `index.json` key but maps it to the
falsy marker `0`. -/
def falsyIndexSrc : JSource :=
  { name := "falsy",
    list := [("index.json", .num 0)],
    file := fun _ => .obj [("format", .num 3)] }

/-- A well-formed archive whose single tag bank contains a row with only four
of the five tag columns. -/
def shortTagRowSrc : JSource :=
  { name := "c1",
    list := [("index.json", .obj [("format", .num 3)]),
             ("tag_bank_1.json", .bool true)],
    file := fun n =>
      if n = "index.json" then .obj [("format", .num 3)]
      else if n = "tag_bank_1.json" then
        .arr [.arr [.str "x", .str "cat", .num 1, .str "desc"]]
      else .null }

/-- C5: `importSource` fails with an error naming the archive when the file
listing has no (truthy) `index.json` entry, and when the parsed index's
`format` field is not the number 3; an index declaring `format: 2` fails with
the format error and yields no dictionary at all. -/
theorem claim_c5 :
    (∀ src : JSource,
      truthy ((getAssoc src.list "index.json").getD .null) = false →
      importSource src = .error ⟨src.name, .missingIndex⟩) ∧
    (∀ src : JSource,
      truthy ((getAssoc src.list "index.json").getD .null) = true →
      isFormat3 (getField (src.file "index.json") "format") = false →
      importSource src = .error
        ⟨src.name, .badFormat (getField (src.file "index.json") "format")⟩) ∧
    importSource format2Src = .error ⟨"format2", .badFormat (.num 2)⟩ := by
  refine ⟨fun src h => importSource_missing_index h,
    fun src h1 h2 => importSource_bad_format h1 h2, ?_⟩
  rfl

/-- C5 witness: the two error paths evaluated on concrete archives. -/
theorem claim_c5_witness :
    importSource noIndexSrc = .error ⟨"noidx", .missingIndex⟩ ∧
    importSource format2Src = .error ⟨"format2", .badFormat (.num 2)⟩ :=
  ⟨claim_c5.1 noIndexSrc rfl, claim_c5.2.1 format2Src rfl rfl⟩

/-- C10: the presence of the index file is decided by the truthiness of the
listing's value, not by key membership — a listing entry `index.json ↦ v`
with falsy `v` (false, 0, "", null/undefined) makes `importSource` fail with
the missing-index error exactly as if the key were absent. -/
theorem claim_c10 (src : JSource) (v : JValue)
    (hv : getAssoc src.list "index.json" = some v) (hf : truthy v = false) :
    importSource src = .error ⟨src.name, .missingIndex⟩ := by
  apply importSource_missing_index
  rw [hv]
  exact hf

/-- C10 witness: a listing mapping `index.json` to the falsy marker `0`. -/
theorem claim_c10_witness :
    importSource falsyIndexSrc = .error ⟨"falsy", .missingIndex⟩ :=
  claim_c10 falsyIndexSrc (.num 0) rfl rfl

/-- C9: the tag-list splitter used for `definition_tags`, `rules`,
`term_tags` (and the kanji reading/tag lists) produces only non-empty tokens,
and rejoining the tokens with single spaces and splitting again yields the
same token list (repeated, leading, and trailing separators are dropped). -/
theorem claim_c9 (s : String) :
    "" ∉ csv s ∧ csv (joinSp (csv s)) = csv s :=
  ⟨csv_no_empty s, csv_joinSp_csv s⟩

/-- C9 witness: the splitter evaluated on a string with repeated, leading and
trailing separators. -/
theorem claim_c9_witness :
    "" ∉ csv " a  bb c " ∧ csv (joinSp (csv " a  bb c ")) = csv " a  bb c " :=
  claim_c9 " a  bb c "

/-- C6: from any file listing exactly the names matching the bank pattern are
selected (others are ignored, not an error), and the selected banks are
ordered by kind (lexicographic) then numeric index; in particular
`{tag_bank_2.json, tag_bank_1.json, term_bank_1.json}` is processed as
`tag_bank_1, tag_bank_2, term_bank_1`. -/
theorem claim_c6 (names : List String) :
    (∀ b, b ∈ bankFiles names ↔ ∃ n ∈ names, splitName n = some b) ∧
    List.Sorted bankLEp (bankFiles names) ∧
    bankFiles ["tag_bank_2.json", "tag_bank_1.json", "term_bank_1.json"] =
      [⟨"tag", "tag_bank_1.json", 1⟩, ⟨"tag", "tag_bank_2.json", 2⟩,
       ⟨"term", "term_bank_1.json", 1⟩] := by
  refine ⟨?_, List.sorted_insertionSort bankLEp _, by decide⟩
  intro b
  rw [bankFiles, (List.perm_insertionSort bankLEp _).mem_iff, List.mem_filterMap]

-- ## Claim C1: row arity

/-- Is a JSON value a string? (The only shape `csv` accepts.) -/
def isStrJ : JValue → Bool
  | .str _ => true
  | _ => false

theorem csvJ_isOk (v : JValue) : (csvJ v).isOk = isStrJ v := by
  cases v <;> rfl

theorem cell_take (cells : List JValue) (n i : Nat) (h : i < n) :
    cell (cells.take n) i = cell cells i := by
  unfold cell
  rw [List.getD_eq_getElem?_getD, List.getD_eq_getElem?_getD,
    List.getElem?_take, if_pos h]

/-- C1 (counterexample): a tag-bank row with only four of the five columns
imports without any error; the missing `score` column is silently padded with
undefined, refuting the claimed fatal MalformedRecordError. -/
theorem claim_c1_counterexample :
    importSource shortTagRowSrc =
      .ok ⟨.obj [("format", .num 3)], [], [],
        [⟨.str "x", .str "cat", .num 1, .str "desc", .null⟩], [], []⟩ := by
  rfl

/-- C1 (amended): wrong-arity rows are not detected as such — destructuring
pads missing columns with undefined and ignores extra columns (decoding a row
equals decoding its truncation to the expected arity).  An import error (a
TypeError, not a MalformedRecordError) arises only when a column that is
split as a space-delimited tag list is missing or not a string: term rows
need strings in columns 2, 3 and 7, kanji rows in columns 1, 2 and 3; tag and
meta rows of every arity are accepted with all absent columns undefined. -/
theorem claim_c1_amended (cells : List JValue) :
    (decodeTerm cells).isOk =
      (isStrJ (cell cells 2) && isStrJ (cell cells 3) && isStrJ (cell cells 7)) ∧
    (decodeKanji cells).isOk =
      (isStrJ (cell cells 1) && isStrJ (cell cells 2) && isStrJ (cell cells 3)) ∧
    decodeTag cells =
      ⟨cell cells 0, cell cells 1, cell cells 2, cell cells 3, cell cells 4⟩ ∧
    decodeMeta cells = ⟨cell cells 0, cell cells 1, cell cells 2⟩ ∧
    decodeTerm cells = decodeTerm (cells.take 8) ∧
    decodeKanji cells = decodeKanji (cells.take 6) ∧
    decodeTag cells = decodeTag (cells.take 5) ∧
    decodeMeta cells = decodeMeta (cells.take 3) := by
  refine ⟨?_, ?_, rfl, rfl, ?_, ?_, ?_, ?_⟩
  · rw [← csvJ_isOk, ← csvJ_isOk, ← csvJ_isOk]
    rcases ha : csvJ (cell cells 2) with e2 | x2 <;>
      rcases hb : csvJ (cell cells 3) with e3 | x3 <;>
        rcases hc : csvJ (cell cells 7) with e7 | x7 <;>
          simp [decodeTerm, ha, hb, hc, Except.isOk, Except.toBool, Bind.bind, Except.bind, Except.instMonad]
  · rw [← csvJ_isOk, ← csvJ_isOk, ← csvJ_isOk]
    rcases ha : csvJ (cell cells 1) with e2 | x2 <;>
      rcases hb : csvJ (cell cells 2) with e3 | x3 <;>
        rcases hc : csvJ (cell cells 3) with e7 | x7 <;>
          simp [decodeKanji, ha, hb, hc, Except.isOk, Except.toBool, Bind.bind, Except.bind, Except.instMonad]
  · unfold decodeTerm
    rw [cell_take cells 8 0 (by omega), cell_take cells 8 1 (by omega),
      cell_take cells 8 2 (by omega), cell_take cells 8 3 (by omega),
      cell_take cells 8 4 (by omega), cell_take cells 8 5 (by omega),
      cell_take cells 8 6 (by omega), cell_take cells 8 7 (by omega)]
  · unfold decodeKanji
    rw [cell_take cells 6 0 (by omega), cell_take cells 6 1 (by omega),
      cell_take cells 6 2 (by omega), cell_take cells 6 3 (by omega),
      cell_take cells 6 4 (by omega), cell_take cells 6 5 (by omega)]
  · unfold decodeTag
    rw [cell_take cells 5 0 (by omega), cell_take cells 5 1 (by omega),
      cell_take cells 5 2 (by omega), cell_take cells 5 3 (by omega),
      cell_take cells 5 4 (by omega)]
  · unfold decodeMeta
    rw [cell_take cells 3 0 (by omega), cell_take cells 3 1 (by omega),
      cell_take cells 3 2 (by omega)]

/-- C4: merging a compatible candidate into an occupant fills only occupant
fields that are empty/zero (category, description, order, score, each
independently) from the candidate, never overwrites a non-empty occupant
field, and never touches the name; an occupant with a non-empty differing
category is incompatible and not merged. -/
theorem claim_c4 (occ cand : Tag) :
    (mergeInto occ cand).name = occ.name ∧
    (occ.category ≠ "" → (mergeInto occ cand).category = occ.category) ∧
    (occ.category = "" → (mergeInto occ cand).category = cand.category) ∧
    (occ.description ≠ "" → (mergeInto occ cand).description = occ.description) ∧
    (occ.description = "" → (mergeInto occ cand).description = cand.description) ∧
    (occ.order ≠ 0 → (mergeInto occ cand).order = occ.order) ∧
    (occ.order = 0 → (mergeInto occ cand).order = cand.order) ∧
    (occ.score ≠ 0 → (mergeInto occ cand).score = occ.score) ∧
    (occ.score = 0 → (mergeInto occ cand).score = cand.score) ∧
    (cand.category ≠ "" → occ.category ≠ "" → cand.category ≠ occ.category →
      canMerge cand occ = false) := by
  refine ⟨rfl, ?_, ?_, ?_, ?_, ?_, ?_, ?_, ?_, ?_⟩
  · intro h; simp [mergeInto, h]
  · intro h; simp [mergeInto, h]
  · intro h; simp [mergeInto, h]
  · intro h; simp [mergeInto, h]
  · intro h; simp [mergeInto, h]
  · intro h; simp [mergeInto, h]
  · intro h; simp [mergeInto, h]
  · intro h; simp [mergeInto, h]
  · intro h1 h2 h3
    simp [canMerge, h1, h2, h3]

/-- C4 witness: merging `category:"verb"` into an empty-category occupant
yields `"verb"`; a `"verb"` candidate against a `"noun"` occupant is
incompatible. -/
theorem claim_c4_witness :
    (mergeInto ⟨"v5", "", 0, "", 0⟩ ⟨"v5", "verb", 1, "d", 2⟩).category = "verb" ∧
    canMerge ⟨"v5", "verb", 0, "", 0⟩ ⟨"v5", "noun", 0, "", 0⟩ = false := by
  constructor
  · exact (claim_c4 ⟨"v5", "", 0, "", 0⟩ ⟨"v5", "verb", 1, "d", 2⟩).2.2.1 rfl
  · exact (claim_c4 ⟨"v5", "noun", 0, "", 0⟩ ⟨"v5", "verb", 0, "", 0⟩).2.2.2.2.2.2.2.2.2
      (by decide) (by decide) (by decide)

/-- C8: invariant of the reconciled namespace — every stored tag keeps its
display name unmodified (merging never touches it), and its id is either the
name itself or a collision-suffixed `name-k` with `k ≥ 2`. -/
theorem claim_c8 (ds : List Dictionary) (args : MergeArgs) (p : String × Tag)
    (hp : p ∈ (mergeTags ds args).1) :
    (p.1 = p.2.name ∨ ∃ k, 2 ≤ k ∧ p.1 = p.2.name ++ "-" ++ natStr k) ∧
    (∀ cur cand : Tag, (mergeInto cur cand).name = cur.name) := by
  refine ⟨?_, fun cur cand => rfl⟩
  unfold mergeTags at hp
  rcases hpd : processDicts initState ds with ⟨st, ds'⟩
  rw [hpd] at hp
  simp only at hp
  obtain ⟨hsteps, _⟩ := processDicts_spec ds initState st ds' hpd
  have hwf0 : WfIds initState.tags := fun q hq => absurd hq (by simp [initState])
  have hwf : WfIds st.tags := hsteps.2.2 hwf0
  exact hwf p (cleanup_mem hp)

/-- A one-tag dictionary used as concrete witness input. -/
def oneTagDict : Dictionary :=
  ⟨⟨"", 3, "", false⟩, [], [], [⟨"a", "c", 1, "d", 2⟩], [], []⟩

/-- C8 witness: the invariant evaluated on the namespace produced from one
concrete dictionary. -/
theorem claim_c8_witness :
    ("a", (⟨"a", "c", 1, "d", 2⟩ : Tag)).1 = ("a", (⟨"a", "c", 1, "d", 2⟩ : Tag)).2.name ∨
      ∃ k, 2 ≤ k ∧ ("a", (⟨"a", "c", 1, "d", 2⟩ : Tag)).1 =
        ("a", (⟨"a", "c", 1, "d", 2⟩ : Tag)).2.name ++ "-" ++ natStr k :=
  (claim_c8 [oneTagDict] defaultMergeArgs ("a", ⟨"a", "c", 1, "d", 2⟩)
    (by decide)).1

-- ## Claim C2: reference rewriting

/-- A dictionary that defines no tags but references one. -/
def noTagDict : Dictionary :=
  ⟨⟨"", 3, "", false⟩, [⟨"taberu", "taberu", [], [], 0, [], 1, ["x"]⟩],
   [], [], [], []⟩

/-- C2 (counterexample): a dictionary whose tag list is empty is skipped
entirely by `mergeTags` — its term still references the raw name `"x"`
afterwards and the returned namespace is empty, so the reference is neither
rewritten nor resolved to any namespace id. -/
theorem claim_c2_counterexample :
    mergeTags [noTagDict] defaultMergeArgs = ([], [noTagDict]) ∧
    noTagDict.terms.map Term.term_tags = [["x"]] :=
  ⟨rfl, rfl⟩

/-- C2 (amended): for every dictionary that defines at least one tag, every
tag name appearing in any term's `term_tags`, `definition_tags` or `rules`
and in any kanji's `tags` list or `stats` keys is resolved and replaced in
place by an id present in the returned namespace (lists element by element,
all other fields untouched); a dictionary defining no tags is skipped whole,
its references left as raw names.  A referenced name not defined in the
dictionary's tag list is resolved with a freshly synthesized all-empty
candidate `{name, category:"", description:"", order:0, score:0}`, which
claims a free id (inserting the synthesized tag, as below) or merges into a
compatible occupant. -/
theorem claim_c2_amended (ds : List Dictionary) :
    List.Forall₂ (fun d d' =>
      (d.tags = [] → d' = d) ∧
      (d.tags ≠ [] →
        DictResolved (keysOf (mergeTags ds defaultMergeArgs).1) d d'))
      ds (mergeTags ds defaultMergeArgs).2 ∧
    (∀ (dictTags : List Tag) (n : String) (u : Bool) (st : MState),
      (∀ t0 ∈ dictTags, t0.name ≠ n) →
      getAssoc st.mapped n = none →
      getAssoc st.tags n = none →
      ∃ st2, mapTag dictTags n u st = (n, st2) ∧
        getAssoc st2.tags n = some ⟨n, "", 0, "", 0⟩) := by
  constructor
  · rcases hpd : processDicts initState ds with ⟨st, ds'⟩
    have hm : mergeTags ds defaultMergeArgs = (st.tags, ds') := by
      unfold mergeTags
      rw [hpd]
      simp only [cleanup_default]
    rw [hm]
    obtain ⟨_, hforall⟩ := processDicts_spec ds initState st ds' hpd
    simp only
    refine List.Forall₂.imp ?_ hforall
    intro d d' hdd
    obtain ⟨h0, h1⟩ := hdd
    constructor
    · intro hz
      exact h0 (by rw [hz]; rfl)
    · intro hnz
      exact h1 (fun hc => hnz (List.length_eq_zero.mp hc))
  · intro dictTags n u st hnd hmapped htags
    have hbn : byNameGet dictTags n = none := by
      unfold byNameGet
      rw [List.find?_eq_none]
      intro t ht
      simpa using hnd t (List.mem_reverse.mp ht)
    have hstep : mapTag dictTags n u st =
        (n, { st with
              tags := setAssoc st.tags n
                { name := n, category := "", order := 0, description := "",
                  score := 0 },
              mapped := setAssoc st.mapped n n,
              tagUsage := if u then useTag st.tagUsage n else st.tagUsage }) := by
      unfold mapTag
      rw [hmapped]
      simp only [Option.getD_none]
      rw [if_neg (by simp)]
      rw [hbn]
      simp only [Option.getD_none, mapTagGo]
      have ht1 : tagId n 1 = n := by simp [tagId]
      rw [ht1, htags]
    refine ⟨_, hstep, ?_⟩
    simp only
    exact getAssoc_setAssoc_self _ _ _

/-- C2 witness: the amended rewrite relation evaluated on one concrete
dictionary list. -/
theorem claim_c2_amended_witness :
    List.Forall₂ (fun d d' =>
      (d.tags = [] → d' = d) ∧
      (d.tags ≠ [] →
        DictResolved (keysOf (mergeTags [oneTagDict] defaultMergeArgs).1) d d'))
      [oneTagDict] (mergeTags [oneTagDict] defaultMergeArgs).2 :=
  (claim_c2_amended [oneTagDict]).1

/-- C7: with the default flags (no `deleteUnused`), every tag explicitly
defined in any input dictionary's tag list is still represented in the
returned namespace: pass 1 resolves its name to an id (possibly merging it
into a compatible occupant), and that id is a key of the final namespace even
if no term or kanji ever references it. -/
theorem claim_c7 (pre post : List Dictionary) (dict : Dictionary) (t : Tag)
    (ht : t ∈ dict.tags) :
    ∃ id,
      getAssoc (seedTags dict.tags dict.tags
        { (processDicts initState pre).1 with mapped := [] }).mapped t.name
          = some id ∧
      id ∈ keysOf (mergeTags (pre ++ dict :: post) defaultMergeArgs).1 := by
  rcases hpre : processDicts initState pre with ⟨st0, pre'⟩
  dsimp only
  set st0r : MState := { st0 with mapped := [] } with hst0r
  have hInv0 : InvM st0r := fun p hp => absurd hp (by simp [hst0r])
  set st1 : MState := seedTags dict.tags dict.tags st0r with hst1
  obtain ⟨sseed, _, mseed⟩ := seedTags_spec dict.tags dict.tags st0r
  have hsome : (getAssoc st1.mapped t.name).isSome := mseed hInv0 t ht
  rcases hid : getAssoc st1.mapped t.name with _ | id
  · rw [hid] at hsome
    simp at hsome
  · refine ⟨id, rfl, ?_⟩
    have hInv1 : InvM st1 := sseed.2.1 hInv0
    have hid1 : id ∈ keysOf st1.tags := hInv1 (t.name, id) (getAssoc_mem hid)
    -- keys only grow from st1 to the final namespace
    have hz : dict.tags.length ≠ 0 := by
      intro hc
      rw [List.length_eq_zero.mp hc] at ht
      simp at ht
    rcases hterms : processTerms dict.tags dict.terms st1 with ⟨terms', st2⟩
    rcases hkanjis : processKanjis dict.tags dict.kanji st2 with ⟨kanji', st3⟩
    have hdict : processDict st0 dict =
        (st3, { dict with terms := terms', kanji := kanji' }) := by
      unfold processDict
      rw [if_neg hz]
      dsimp only
      rw [← hst0r, ← hst1, hterms]
      simp only
      rw [hkanjis]
    rcases hpost : processDicts st3 post with ⟨st4, post'⟩
    have hall : processDicts initState (pre ++ dict :: post) =
        (st4, pre' ++ ({ dict with terms := terms', kanji := kanji' } :: post')) := by
      rw [processDicts_append, hpre]
      simp only [processDicts, hdict, hpost]
    have hns : (mergeTags (pre ++ dict :: post) defaultMergeArgs).1 = st4.tags := by
      unfold mergeTags
      rw [hall]
      simp only [cleanup_default]
    rw [hns]
    obtain ⟨sterms, _, _⟩ := processTerms_spec dict.tags _ _ _ _ hterms
    obtain ⟨skanjis, _, _⟩ := processKanjis_spec dict.tags _ _ _ _ hkanjis
    obtain ⟨spost, _⟩ := processDicts_spec post st3 st4 post' hpost
    exact spost.1 id (skanjis.1 id (sterms.1 id hid1))

/-- C7 witness: a defined, never referenced tag survives reconciliation of a
concrete batch. -/
theorem claim_c7_witness :
    ∃ id,
      getAssoc (seedTags oneTagDict.tags oneTagDict.tags
        { (processDicts initState []).1 with mapped := [] }).mapped "a"
          = some id ∧
      id ∈ keysOf (mergeTags ([] ++ oneTagDict :: []) defaultMergeArgs).1 :=
  claim_c7 [] [] oneTagDict ⟨"a", "c", 1, "d", 2⟩ (by decide)

-- ## Claim C3: collision resolution across two dictionaries

/-- A dictionary defining exactly one tag and nothing else. -/
def tagOnlyDict (t : Tag) : Dictionary :=
  ⟨⟨"", 3, "", false⟩, [], [], [t], [], []⟩

theorem tagId_one (n : String) : tagId n 1 = n := by
  simp [tagId]

theorem tagId_two (n : String) : tagId n 2 = n ++ "-2" := by
  rw [tagId, if_neg (by omega), String.append_assoc]
  rfl

theorem byNameGet_single (t : Tag) : byNameGet [t] t.name = some t := by
  simp [byNameGet]

theorem mapTag_first (t : Tag) :
    mapTag [t] t.name false ⟨[], [], []⟩ =
      (t.name, ⟨[(t.name, t)], [], [(t.name, t.name)]⟩) := by
  unfold mapTag
  simp only [getAssoc, List.find?, Option.map_none', Option.getD_none]
  rw [if_neg (by simp)]
  rw [byNameGet_single]
  simp only [Option.getD_some, List.length_nil, mapTagGo, tagId_one]
  simp [getAssoc, List.find?, setAssoc]

theorem processDict_first (t : Tag) :
    processDict initState (tagOnlyDict t) =
      (⟨[(t.name, t)], [], [(t.name, t.name)]⟩, tagOnlyDict t) := by
  unfold processDict
  rw [if_neg (by simp [tagOnlyDict])]
  dsimp only [tagOnlyDict, initState]
  rw [show seedTags [t] [t] ⟨[], [], []⟩ =
      (⟨[(t.name, t)], [], [(t.name, t.name)]⟩ : MState) by
    simp only [seedTags, mapTag_first]]
  simp only [processTerms, processKanjis]

theorem claim_c3 (t1 t2 : Tag) (hname : t2.name = t1.name) :
    (mergeTags [tagOnlyDict t1, tagOnlyDict t2] defaultMergeArgs).1 =
      if (t2.category = t1.category ∨ t2.category = "" ∨ t1.category = "") ∧
          (t2.description = t1.description ∨ t2.description = "" ∨
            t1.description = "")
      then [(t1.name, mergeInto t1 t2)]
      else [(t1.name, t1), (t1.name ++ "-2", t2)] := by
  have hcond : ((t2.category = t1.category ∨ t2.category = "" ∨ t1.category = "") ∧
      (t2.description = t1.description ∨ t2.description = "" ∨
        t1.description = "")) ↔ canMerge t2 t1 = true := by
    simp only [canMerge, Bool.or_eq_true, Bool.and_eq_true, beq_iff_eq, or_assoc]
  have hbeq : (t1.name == t2.name) = true := by simp [hname]
  have hget1 : getAssoc [(t1.name, t1)] t2.name = some t1 := by
    simp [getAssoc, List.find?, hbeq]
  have hbeq2 : (t1.name == tagId t2.name 2) = false := by
    rw [hname]
    have := @tagId_ne_self t1.name 2 (by omega)
    simpa using fun he => this he.symm
  by_cases hcm : canMerge t2 t1 = true
  · -- compatible: the second tag merges onto the shared id
    have hmap2 : mapTag [t2] t2.name false ⟨[(t1.name, t1)], [], []⟩ =
        (t1.name, ⟨[(t1.name, mergeInto t1 t2)], [], [(t2.name, t1.name)]⟩) := by
      unfold mapTag
      simp only [getAssoc, List.find?, Option.map_none', Option.getD_none]
      rw [if_neg (by simp)]
      rw [byNameGet_single]
      simp only [Option.getD_some, List.length_cons, List.length_nil, mapTagGo,
        tagId_one]
      rw [show (getAssoc [(t1.name, t1)] t2.name) = some t1 from hget1]
      simp only [hcm, if_true]
      rw [hname]
      simp [setAssoc, hbeq, beq_iff_eq, hname]
    have hd2 : processDict ⟨[(t1.name, t1)], [], [(t1.name, t1.name)]⟩
        (tagOnlyDict t2) =
        (⟨[(t1.name, mergeInto t1 t2)], [], [(t2.name, t1.name)]⟩,
          tagOnlyDict t2) := by
      unfold processDict
      rw [if_neg (by simp [tagOnlyDict])]
      dsimp only [tagOnlyDict]
      rw [show seedTags [t2] [t2] ⟨[(t1.name, t1)], [], []⟩ =
          (⟨[(t1.name, mergeInto t1 t2)], [], [(t2.name, t1.name)]⟩ : MState) by
        simp only [seedTags, hmap2]]
      simp only [processTerms, processKanjis]
    rw [if_pos (hcond.mpr hcm)]
    unfold mergeTags
    simp only [processDicts, processDict_first, hd2, cleanup_default]
  · -- incompatible: the second tag takes the suffixed id
    have hcmf : canMerge t2 t1 = false := by simpa using hcm
    have hmap2 : mapTag [t2] t2.name false ⟨[(t1.name, t1)], [], []⟩ =
        (t1.name ++ "-2",
          ⟨[(t1.name, t1), (t1.name ++ "-2", t2)], [],
            [(t2.name, t1.name ++ "-2")]⟩) := by
      unfold mapTag
      simp only [getAssoc, List.find?, Option.map_none', Option.getD_none]
      rw [if_neg (by simp)]
      rw [byNameGet_single]
      simp only [Option.getD_some, List.length_cons, List.length_nil, mapTagGo,
        tagId_one]
      rw [show (getAssoc [(t1.name, t1)] t2.name) = some t1 from hget1]
      simp only [hcmf, Bool.false_eq_true, if_false]
      rw [show getAssoc [(t1.name, t1)] (tagId t2.name 2) = none by
        simp [getAssoc, List.find?, hbeq2]]
      have h2 : tagId t2.name 2 = t1.name ++ "-2" := by rw [hname, tagId_two]
      rw [h2]
      simp only [setAssoc]
      rw [show (t1.name == t1.name ++ "-2") = false by rw [← h2]; exact hbeq2]
      simp
    have hd2 : processDict ⟨[(t1.name, t1)], [], [(t1.name, t1.name)]⟩
        (tagOnlyDict t2) =
        (⟨[(t1.name, t1), (t1.name ++ "-2", t2)], [],
          [(t2.name, t1.name ++ "-2")]⟩, tagOnlyDict t2) := by
      unfold processDict
      rw [if_neg (by simp [tagOnlyDict])]
      dsimp only [tagOnlyDict]
      rw [show seedTags [t2] [t2] ⟨[(t1.name, t1)], [], []⟩ =
          (⟨[(t1.name, t1), (t1.name ++ "-2", t2)], [],
            [(t2.name, t1.name ++ "-2")]⟩ : MState) by
        simp only [seedTags, hmap2]]
      simp only [processTerms, processKanjis]
    rw [if_neg (fun hc => hcm (hcond.mp hc))]
    unfold mergeTags
    simp only [processDicts, processDict_first, hd2, cleanup_default]

/-- C3 witness: two dictionaries defining `"v5"` with matching categories
share the id `"v5"`; with conflicting non-empty categories they receive the
ids `"v5"` and `"v5-2"`. -/
theorem claim_c3_witness :
    (mergeTags [tagOnlyDict ⟨"v5", "verb", 0, "", 0⟩,
        tagOnlyDict ⟨"v5", "verb", 1, "d", 0⟩] defaultMergeArgs).1 =
      [("v5", mergeInto ⟨"v5", "verb", 0, "", 0⟩ ⟨"v5", "verb", 1, "d", 0⟩)] ∧
    (mergeTags [tagOnlyDict ⟨"v5", "verb", 0, "", 0⟩,
        tagOnlyDict ⟨"v5", "noun", 0, "", 0⟩] defaultMergeArgs).1 =
      [("v5", ⟨"v5", "verb", 0, "", 0⟩), ("v5-2", ⟨"v5", "noun", 0, "", 0⟩)] := by
  constructor
  · rw [claim_c3 ⟨"v5", "verb", 0, "", 0⟩ ⟨"v5", "verb", 1, "d", 0⟩ rfl]
    rw [if_pos (by exact ⟨Or.inl rfl, Or.inr (Or.inr rfl)⟩)]
  · rw [claim_c3 ⟨"v5", "verb", 0, "", 0⟩ ⟨"v5", "noun", 0, "", 0⟩ rfl]
    rw [if_neg (by rintro ⟨h1 | h1 | h1, _⟩ <;> simp at h1)]
    rfl
